import Mathlib

/-!
Verification development for `src/textcontent.py` (python-innertext).

The file shallowly embeds the two-phase rendered-text extraction:
a recursive tree walk (`inner_text_collection`) producing a flat list of
collection items (text fragments, required-line-break counts, block
markers), a whitespace-normalization pass (`do_whitespace`,
`do_whitespace_internal`), and the finalizer (`get_textContent`).
Python strings of collection items are modelled as `Item.str`, Python
ints (block markers `-1`/`-2` and positive required-line-break counts)
as `Item.int`.  The external `urljoin` helper (Python standard library,
not part of the repository) is modelled as an arbitrary total function
parameter `uj`.
-/

namespace InnerText

/-- A DOM node as consumed by the library: bs4 `Tag` (element with a
lowercase tag name, attributes and ordered children), `NavigableString`
(text) or `Comment` (which in bs4 is a subclass of `NavigableString`). -/
inductive Node where
  | element (tag : String) (attrs : List (String × String)) (children : List Node)
  | text (s : String)
  | comment (s : String)

/-- A collection item: Python code stores either a `str` or an `int`
(`BLOCK_BEGIN = -1`, `BLOCK_END = -2`, positive required line break counts). -/
inductive Item where
  | str (s : String)
  | int (n : Int)
deriving DecidableEq, Repr

/-- Python constant `BLOCK_BEGIN = -1` (textcontent.py line 112). -/
def BLOCK_BEGIN : Item := Item.int (-1)

/-- Python constant `BLOCK_END = -2` (textcontent.py line 113). -/
def BLOCK_END : Item := Item.int (-2)

/-- bs4 `.name`: the tag name for elements, `None` for text and comments. -/
def nodeName : Node → Option String
  | Node.element t _ _ => some t
  | Node.text _ => none
  | Node.comment _ => none

/-- Whether the node is a bs4 `Tag` (an element). -/
def isElement : Node → Bool
  | Node.element _ _ _ => true
  | _ => false

/-- Whether the node is a bs4 `NavigableString`; in bs4 a `Comment` is a
subclass of `NavigableString`, so comments also satisfy this test. -/
def isNavigableString : Node → Bool
  | Node.text _ => true
  | Node.comment _ => true
  | _ => false

/-- Whether the node is a bs4 `Comment`. -/
def isCommentNode : Node → Bool
  | Node.comment _ => true
  | _ => false

/-- Python `text_type(el)` applied to a `NavigableString`: its string content. -/
def textValue : Node → String
  | Node.text s => s
  | Node.comment s => s
  | Node.element _ _ _ => ""

/-- Attribute lookup on an attribute list (bs4 `el.get(attr)`,
duplicates impossible per the data model). -/
def getAttrOf (attrs : List (String × String)) (name : String) : Option String :=
  (attrs.find? (fun p => decide (p.1 = name))).map (fun p => p.2)

/-- bs4 `el.get(attr)` on a node (`None` for non-elements). -/
def getAttr (node : Node) (name : String) : Option String :=
  match node with
  | Node.element _ attrs _ => getAttrOf attrs name
  | _ => none

/-- bs4 `el.has_attr(attr)`. -/
def hasAttr (node : Node) (name : String) : Bool :=
  (getAttr node name).isSome

/-- The fixed "never rendered" tag set of `is_rendered`
(textcontent.py line 106). -/
def neverRenderedTags : List String :=
  ["area", "base", "basefont", "datalist", "head", "link", "meta", "noembed",
   "noframes", "param", "rp", "script", "source", "style", "template", "track", "title"]

/-- Parent tags for which a `form` child is not rendered
(textcontent.py line 99). -/
def tableLikeTags : List String := ["table", "thead", "tbody", "tfoot", "tr"]

/-- Membership test of an optional tag name in a tag list (Python's
`node.name in (...)` where `name` can be `None`). -/
def optTagIn (o : Option String) (l : List String) : Bool :=
  match o with
  | some t => decide (t ∈ l)
  | none => false

/-- Python `is_rendered(node)` (textcontent.py lines 90-109).  The Python
code consults `node.parent.name` for the `form` rule; the parent's tag is
threaded here as an explicit `parentTag` argument (the walker always knows
it; bs4 text nodes have `name = None`, so only the comment check and the
catch-all `True` can fire for them). -/
def is_rendered (parentTag : Option String) (node : Node) : Bool :=
  if isCommentNode node = true then false
  else if nodeName node = some "dialog" ∧ hasAttr node "open" = false then false
  else if nodeName node = some "form" ∧ optTagIn parentTag tableLikeTags = true then false
  else if isElement node = true ∧ hasAttr node "hidden" = true then false
  else if optTagIn (nodeName node) neverRenderedTags = true then false
  else true

/-- Python `is_pre_rendered(el)` (textcontent.py lines 200-201):
`el.name in ('listing', 'plaintext', 'pre', 'xmp')`. -/
def is_pre_rendered (el : Node) : Bool :=
  match nodeName el with
  | some t => decide (t ∈ ["listing", "plaintext", "pre", "xmp"])
  | none => false

/-- Characters matched by the `[ \t]` regex class. -/
def isSpaceTab (c : Char) : Bool := c = ' ' || c = '\t'

/-- U+200B ZERO WIDTH SPACE. -/
def zwsChar : Char := Char.ofNat 0x200B

/-- Python `_remove_whitespace_before_segment_break.sub("\n", s)`, i.e.
`re.sub(r"[ \t]+\n", "\n", s)`: every maximal run of spaces/tabs
immediately preceding a line feed is deleted.  Processing right to left,
a space/tab is dropped exactly when what follows it (after such drops) is
a line feed, which is the case exactly when it sits in a `[ \t]*\n` tail. -/
def removeWsBeforeLF : List Char → List Char
  | [] => []
  | c :: rest =>
    let r := removeWsBeforeLF rest
    if isSpaceTab c = true ∧ r.head? = some '\n' then r else c :: r

/-- Python `_remove_whitespace_after_segment_break.sub("\n", s)`, i.e.
`re.sub(r"\n[ \t]+", "\n", s)`: every maximal run of spaces/tabs
immediately following a line feed is deleted.  The flag records whether
the scan is directly after a line feed with only spaces/tabs since. -/
def removeWsAfterLFGo (afterLF : Bool) : List Char → List Char
  | [] => []
  | c :: rest =>
    if c = '\n' then c :: removeWsAfterLFGo true rest
    else if afterLF = true ∧ isSpaceTab c = true then removeWsAfterLFGo true rest
    else c :: removeWsAfterLFGo false rest

/-- Python `_collapse_newlines.sub("\n", s)`, i.e. `re.sub(r"\n{2,}", "\n", s)`:
every maximal run of line feeds becomes a single line feed.  The flag
records whether the previous character was a line feed. -/
def collapseLFGo (prevLF : Bool) : List Char → List Char
  | [] => []
  | c :: rest =>
    if c = '\n' then
      if prevLF = true then collapseLFGo true rest else c :: collapseLFGo true rest
    else c :: collapseLFGo false rest

/-- Python `_remove_ZWS_segment_breaks.sub("​", s)`, i.e.
`re.sub(r"\n*​\n*", "​", s)` with leftmost, non-overlapping,
greedy matching: each U+200B together with the line feeds directly around
it collapses to a bare U+200B (line feeds already consumed as the greedy
tail of a previous match cannot be reused as the head of the next one).
`pending` counts line feeds read but not yet known to precede a U+200B;
`afterZws` means the scan is consuming the greedy `\n*` tail of a match. -/
def zwsGo (pending : Nat) (afterZws : Bool) : List Char → List Char
  | [] => List.replicate pending '\n'
  | c :: rest =>
    if c = '\n' then
      if afterZws = true then zwsGo 0 true rest
      else zwsGo (pending + 1) false rest
    else if c = zwsChar then zwsChar :: zwsGo 0 true rest
    else List.replicate pending '\n' ++ c :: zwsGo 0 false rest

/-- Python `s.replace("\t", " ")`. -/
def tabToSpace (l : List Char) : List Char :=
  l.map (fun c => if c = '\t' then ' ' else c)

/-- Python `s.replace("\n", " ")`. -/
def lfToSpace (l : List Char) : List Char :=
  l.map (fun c => if c = '\n' then ' ' else c)

/-- Python `_reduce_spaces_regex.sub(" ", s)`, i.e. `re.sub(r" {2,}", " ", s)`:
every maximal run of two or more spaces becomes a single space.  The flag
records whether the previous character was a space. -/
def collapseSpacesGo (prevSpace : Bool) : List Char → List Char
  | [] => []
  | c :: rest =>
    if c = ' ' then
      if prevSpace = true then collapseSpacesGo true rest else c :: collapseSpacesGo true rest
    else c :: collapseSpacesGo false rest

/-- Drop elements satisfying `p` from both ends of a list. -/
def stripEnds {α : Type} (p : α → Bool) (l : List α) : List α :=
  ((l.dropWhile p).reverse.dropWhile p).reverse

/-- Python `s.strip(" ")`: remove leading and trailing space characters
(only U+0020, not other whitespace). -/
def stripSpaces (l : List Char) : List Char :=
  stripEnds (fun c => decide (c = ' ')) l

/-- Python `segment_break_transformation(s)` (textcontent.py lines 121-127)
on character lists: collapse line-feed runs, then collapse U+200B together
with surrounding line feeds. -/
def segment_break_transformationChars (l : List Char) : List Char :=
  zwsGo 0 false (collapseLFGo false l)

/-- Python `segment_break_transformation(s)` (textcontent.py lines 121-127). -/
def segment_break_transformation (s : String) : String :=
  String.mk (segment_break_transformationChars s.data)

/-- Core of Python `do_whitespace_internal` (textcontent.py lines 129-141)
after the initial join, on character lists: strip spaces/tabs around line
feeds, segment-break transformation, tabs and line feeds to spaces,
collapse space runs, strip outer spaces. -/
def do_whitespace_internalChars (l : List Char) : List Char :=
  stripSpaces (collapseSpacesGo false (lfToSpace (tabToSpace
    (segment_break_transformationChars (removeWsAfterLFGo false (removeWsBeforeLF l))))))

/-- Python `do_whitespace_internal(l)` (textcontent.py lines 129-141):
join the collected text fragments and normalize the run. -/
def do_whitespace_internal (l : List String) : String :=
  String.mk (do_whitespace_internalChars (String.join l).data)

/-- The spec's `normalize_run`: text-run normalization of a single string,
which is exactly `do_whitespace_internal` applied to the one-fragment run. -/
def normalize_run (s : String) : String := do_whitespace_internal [s]

/-- One iteration of the loop body of Python `do_whitespace`
(textcontent.py lines 176-194), given the accumulated text run
`collected` and the current `skip_to_block_end` counter.  Returns the
items appended to `output_items`, the new `collected` and the new counter. -/
def dwStep (collected : List String) (skip : Int) (item : Item) :
    List Item × List String × Int :=
  let p1 : List Item × List String :=
    if skip = 0 then
      match item with
      | Item.str s => ([], collected ++ [s])
      | Item.int _ =>
        if collected = [] then ([], collected)
        else ([Item.str (do_whitespace_internal collected)], [])
    else
      (if item = BLOCK_BEGIN ∨ item = BLOCK_END then [] else [item], collected)
  if item = BLOCK_BEGIN then (p1.1 ++ [item], p1.2, skip + 1)
  else if item = BLOCK_END then (p1.1 ++ [item], p1.2, skip - 1)
  else (p1.1, p1.2, skip)

/-- The full loop of Python `do_whitespace`: processes the items in order,
returning the emitted output together with the final `collected` run and
counter. -/
def dwProc (collected : List String) (skip : Int) : List Item → List Item × List String × Int
  | [] => ([], collected, skip)
  | i :: rest =>
    let s := dwStep collected skip i
    let r := dwProc s.2.1 s.2.2 rest
    (s.1 ++ r.1, r.2.1, r.2.2)

/-- Python `do_whitespace(items)` (textcontent.py lines 170-197): run the
loop from an empty run and counter 0, then append the normalization of
whatever text run is still pending (the Python code does this
unconditionally, even when the run is empty). -/
def do_whitespace (items : List Item) : List Item :=
  let r := dwProc [] 0 items
  r.1 ++ [Item.str (do_whitespace_internal r.2.1)]

/-- Python `try_urljoin(base, url)` (textcontent.py lines 25-33):
`http(s)://` URLs are returned unchanged, everything else is handed to
the (external, here abstract) `urljoin`; its `ValueError` fallback is
subsumed by quantifying over the total function `uj`. -/
def try_urljoin (uj : String → String → String) (base url : String) : String :=
  if url.startsWith "https://" || url.startsWith "http://" then url
  else uj base url

/-- The configuration threaded through the walk: the abstract `urljoin`
collaborator plus the Python keyword arguments `replace_img`,
`img_to_src`, `base_url` and `required_line_break_count` of
`inner_text_collection`, all of which are passed unchanged to every
recursive call. -/
structure Cfg where
  uj : String → String → String
  replace_img : Bool
  img_to_src : Bool
  base_url : String
  required_line_break_count : Int

/-- The block-level tag list of textcontent.py line 274. -/
def blockLevelTags : List String :=
  ["address", "article", "aside", "blockquote", "details", "dialog", "dd",
   "div", "dl", "dt", "fieldset", "figcaption", "figure", "footer", "form",
   "h1", "h2", "h3", "h4", "h5", "h6", "header", "hgroup", "hr", "li",
   "main", "nav", "ol", "p", "pre", "section", "table", "ul"]

/-- Step 5 of `inner_text_collection` (textcontent.py lines 249-250): a
`br` element's items are replaced by a block-wrapped forced line feed. -/
def brRule (name : String) (items : List Item) : List Item :=
  if name = "br" then [BLOCK_BEGIN, Item.str "\n", BLOCK_END] else items

/-- Step 8 of `inner_text_collection` (textcontent.py lines 256-258): a
`p` element's items get the configured required line break count at both
ends. -/
def pRule (cfg : Cfg) (name : String) (items : List Item) : List Item :=
  if name = "p" then
    Item.int cfg.required_line_break_count :: items ++
      [Item.int cfg.required_line_break_count]
  else items

/-- The microformats-specific image handling of `inner_text_collection`
(textcontent.py lines 261-269): with `replace_img`, an `img` element's
items become its `alt` value (falling back, when `alt` is absent and
`img_to_src` is set, to `src` resolved against the base URL) padded with
one space on each side; when no value is found the items are kept. -/
def imgRule (cfg : Cfg) (name : String) (attrs : List (String × String))
    (items : List Item) : List Item :=
  if name = "img" ∧ cfg.replace_img = true then
    let value := getAttrOf attrs "alt"
    let value :=
      if value = none ∧ cfg.img_to_src = true then
        match getAttrOf attrs "src" with
        | some v => some (try_urljoin cfg.uj cfg.base_url v)
        | none => none
      else value
    match value with
    | some v => [Item.str (" " ++ v ++ " ")]
    | none => items
  else items

/-- The block-level wrap of `inner_text_collection` (textcontent.py
lines 274-277): block-level elements first normalize their items (unless
in pre mode), then wrap them in block markers with a required line break
count of 1 on each side. -/
def blockRule (name : String) (pm : Bool) (items : List Item) : List Item :=
  if name ∈ blockLevelTags then
    let items := if pm = false then do_whitespace items else items
    BLOCK_BEGIN :: Item.int 1 :: items ++ [Item.int 1, BLOCK_END]
  else items

/-- The per-tag overrides of `inner_text_collection` applied in source
order: `br`, then `p`, then `img`, then the block-level wrap. -/
def applyTagRules (cfg : Cfg) (name : String) (attrs : List (String × String))
    (pm : Bool) (items : List Item) : List Item :=
  blockRule name pm (imgRule cfg name attrs (pRule cfg name (brRule name items)))

mutual

/-- Python `inner_text_collection` (textcontent.py lines 205-279).
Steps in source order: force `pre_mode` inside whitespace-preserving
elements; collect children (elements only; `NavigableString`s, which
include comments, have none); discard everything when a non-root node is
not rendered; return the raw text of a `NavigableString` (note a root
`Comment` reaches this step); then the `br`, `p`, `img` and block-level
overrides, the last one normalizing the items first unless in pre mode. -/
def inner_text_collection (cfg : Cfg) (el : Node) (parentTag : Option String)
    (pre_mode : Bool) (first : Bool) : List Item :=
  let pm := pre_mode || is_pre_rendered el
  let items : List Item :=
    match el with
    | Node.element t _ children => collectChildren cfg children (some t) pm
    | _ => []
  if first = false ∧ is_rendered parentTag el = false then []
  else
    match el with
    | Node.text s => [Item.str s]
    | Node.comment s => [Item.str s]
    | Node.element name attrs _ => applyTagRules cfg name attrs pm items

/-- Step 1 of `inner_text_collection`: collect each child in document
order and concatenate the results (textcontent.py lines 220-223; the
children's calls get `first = False` and the current node as parent). -/
def collectChildren (cfg : Cfg) (children : List Node) (parentTag : Option String)
    (pre_mode : Bool) : List Item :=
  match children with
  | [] => []
  | c :: cs =>
    inner_text_collection cfg c parentTag pre_mode false ++
      collectChildren cfg cs parentTag pre_mode

end

/-- Whether a collection item is a Python `int`
(`isinstance(t, int)` in `get_textContent`). -/
def isIntItem : Item → Bool
  | Item.int _ => true
  | Item.str _ => false

/-- The filter of textcontent.py line 291:
`[t for t in x if t not in ('', BLOCK_BEGIN, BLOCK_END)]`. -/
def gtc_filter (x : List Item) : List Item :=
  x.filter (fun t => !(t = Item.str "" ∨ t = BLOCK_BEGIN ∨ t = BLOCK_END : Bool))

/-- The two `while isinstance(results[...], int): pop` loops of
textcontent.py lines 293-305: drop every leading and trailing int item. -/
def gtc_strip (l : List Item) : List Item :=
  stripEnds isIntItem l

/-- The final loop of textcontent.py lines 308-317: replace each int `t`
by `max(t - count, 0)` line feeds where `count` is the largest int seen
since the last string item, strings reset `count`. -/
def collapseGo (count : Int) : List Item → List String
  | [] => []
  | Item.int t :: rest =>
    if t > count then String.mk (List.replicate (t - count).toNat '\n') :: collapseGo t rest
    else "" :: collapseGo count rest
  | Item.str s :: rest => s :: collapseGo 0 rest

/-- Python `get_textContent(el, replace_img=True, img_to_src=True, base_url='')`
(textcontent.py lines 285-318).  Note the Python function always calls
the walker with the default `required_line_break_count = 1`. -/
def get_textContent (uj : String → String → String) (el : Node)
    (replace_img img_to_src : Bool) (base_url : String) : String :=
  let cfg : Cfg := ⟨uj, replace_img, img_to_src, base_url, 1⟩
  let x := inner_text_collection cfg el none false true
  let x := if is_pre_rendered el = false then do_whitespace x else x
  String.join (collapseGo 0 (gtc_strip (gtc_filter x)))

/-! Block-marker balance theory.  `delta` is the nesting contribution of
an item, `nonnegFrom d l` says every running depth stays nonnegative when
starting from `d`, and `balanced` is the usual Dyck condition. -/

/-- Nesting-depth contribution of an item: `BlockBegin` opens,
`BlockEnd` closes, everything else is neutral. -/
def delta (i : Item) : Int :=
  if i = BLOCK_BEGIN then 1 else if i = BLOCK_END then -1 else 0

/-- Total nesting-depth change over a list of items. -/
def sumDelta (l : List Item) : Int := (l.map delta).sum

/-- All running depths stay nonnegative, starting from depth `d`. -/
def nonnegFrom (d : Int) : List Item → Bool
  | [] => true
  | i :: rest => decide (0 ≤ d + delta i) && nonnegFrom (d + delta i) rest

/-- Properly nested block markers: depths never go negative and the total
change is zero, so every `BlockBegin` has a matching `BlockEnd` at the
same nesting depth. -/
def balanced (l : List Item) : Prop := nonnegFrom 0 l = true ∧ sumDelta l = 0

/-- Whether an item is one of the two block markers. -/
def isMarker (i : Item) : Bool := i = BLOCK_BEGIN || i = BLOCK_END

theorem sumDelta_nil : sumDelta [] = 0 := rfl

theorem sumDelta_cons (i : Item) (l : List Item) :
    sumDelta (i :: l) = delta i + sumDelta l := by
  simp [sumDelta]

theorem sumDelta_append (l m : List Item) :
    sumDelta (l ++ m) = sumDelta l + sumDelta m := by
  simp [sumDelta]

theorem nonnegFrom_append (l m : List Item) (d : Int) :
    nonnegFrom d (l ++ m) = (nonnegFrom d l && nonnegFrom (d + sumDelta l) m) := by
  induction l generalizing d with
  | nil => simp [nonnegFrom, sumDelta_nil]
  | cons i rest ih =>
    simp only [List.cons_append, nonnegFrom, List.append_eq, ih, sumDelta_cons,
      Bool.and_assoc, add_assoc]

theorem balanced_nil : balanced [] := by
  constructor <;> rfl

theorem balanced_append {l m : List Item} (hl : balanced l) (hm : balanced m) :
    balanced (l ++ m) := by
  obtain ⟨hl1, hl2⟩ := hl
  obtain ⟨hm1, hm2⟩ := hm
  constructor
  · rw [nonnegFrom_append, hl1, hl2]
    simpa using hm1
  · rw [sumDelta_append, hl2, hm2]
    norm_num

theorem delta_of_not_marker {i : Item} (h : isMarker i = false) : delta i = 0 := by
  unfold isMarker at h
  unfold delta
  rw [Bool.or_eq_false_iff] at h
  obtain ⟨h1, h2⟩ := h
  simp only [decide_eq_false_iff_not] at h1 h2
  rw [if_neg h1, if_neg h2]

theorem sumDelta_filter (l : List Item) :
    sumDelta (l.filter isMarker) = sumDelta l := by
  induction l with
  | nil => rfl
  | cons i rest ih =>
    by_cases h : isMarker i = true
    · rw [List.filter_cons_of_pos h, sumDelta_cons, sumDelta_cons, ih]
    · rw [List.filter_cons_of_neg (by simpa using h), sumDelta_cons,
        delta_of_not_marker (by simpa using h), ih]
      omega

theorem nonnegFrom_filter (l : List Item) (d : Int) (hd : 0 ≤ d) :
    nonnegFrom d (l.filter isMarker) = nonnegFrom d l := by
  induction l generalizing d with
  | nil => rfl
  | cons i rest ih =>
    by_cases h : isMarker i = true
    · rw [List.filter_cons_of_pos h]
      simp only [nonnegFrom]
      by_cases h2 : 0 ≤ d + delta i
      · rw [ih (d + delta i) h2]
      · simp [h2]
    · rw [List.filter_cons_of_neg (by simpa using h)]
      simp only [nonnegFrom, delta_of_not_marker (by simpa using h), add_zero,
        decide_eq_true_eq]
      rw [ih d hd]
      simp [hd]

theorem balanced_iff_filter (l : List Item) :
    balanced l ↔ balanced (l.filter isMarker) := by
  unfold balanced
  rw [sumDelta_filter, nonnegFrom_filter l 0 le_rfl]

/-! Behaviour of the `do_whitespace` loop state. -/

theorem dwStep_skip (c : List String) (d : Int) (i : Item) :
    (dwStep c d i).2.2 = d + delta i := by
  by_cases h1 : i = BLOCK_BEGIN
  · subst h1
    simp [dwStep, delta, BLOCK_BEGIN, BLOCK_END]
  · by_cases h2 : i = BLOCK_END
    · subst h2
      simp [dwStep, delta, BLOCK_BEGIN, BLOCK_END]
      omega
    · simp [dwStep, delta, h1, h2]

theorem dwStep_of_ne_zero (c : List String) (d : Int) (i : Item) (hd : ¬ d = 0) :
    (dwStep c d i).1 = [i] ∧ (dwStep c d i).2.1 = c := by
  unfold dwStep
  by_cases h1 : i = BLOCK_BEGIN
  · simp [h1, hd, BLOCK_BEGIN]
  · by_cases h2 : i = BLOCK_END
    · simp [h1, h2, hd, BLOCK_BEGIN, BLOCK_END]
    · simp [h1, h2, hd]

theorem dwProc_append (l m : List Item) (c : List String) (d : Int) :
    dwProc c d (l ++ m) =
      ((dwProc c d l).1 ++ (dwProc (dwProc c d l).2.1 (dwProc c d l).2.2 m).1,
       (dwProc (dwProc c d l).2.1 (dwProc c d l).2.2 m).2.1,
       (dwProc (dwProc c d l).2.1 (dwProc c d l).2.2 m).2.2) := by
  induction l generalizing c d with
  | nil => simp [dwProc]
  | cons i rest ih =>
    simp only [List.cons_append, dwProc, List.append_eq]
    rw [ih]
    simp [List.append_assoc]

theorem dwProc_skip (l : List Item) (c : List String) (d : Int) :
    (dwProc c d l).2.2 = d + sumDelta l := by
  induction l generalizing c d with
  | nil => simp [dwProc, sumDelta_nil]
  | cons i rest ih =>
    simp only [dwProc, ih, dwStep_skip, sumDelta_cons]
    omega

/-- The loop processes every item of `l` at a nonzero counter: `d` is the
counter when the head is processed, and it stays nonzero throughout. -/
def staysPos (d : Int) : List Item → Bool
  | [] => true
  | i :: rest => decide (¬ d = 0) && staysPos (d + delta i) rest

theorem staysPos_of_nonneg (l : List Item) (d : Int) (hd : 1 ≤ d)
    (h : nonnegFrom (d - 1) l = true) : staysPos d l = true := by
  induction l generalizing d with
  | nil => rfl
  | cons i rest ih =>
    simp only [nonnegFrom, Bool.and_eq_true, decide_eq_true_eq] at h
    simp only [staysPos, Bool.and_eq_true, decide_eq_true_eq]
    refine ⟨by omega, ih (d + delta i) (by omega) ?_⟩
    have h2 : d + delta i - 1 = d - 1 + delta i := by omega
    rw [h2]
    exact h.2

/-- While the counter is nonzero, `do_whitespace` copies every item
through verbatim and leaves the collected run untouched. -/
theorem dwProc_copy (l : List Item) (c : List String) (d : Int)
    (h : staysPos d l = true) :
    dwProc c d l = (l, c, d + sumDelta l) := by
  induction l generalizing c d with
  | nil => simp [dwProc, sumDelta_nil]
  | cons i rest ih =>
    simp only [staysPos, Bool.and_eq_true, decide_eq_true_eq] at h
    obtain ⟨hne, hrest⟩ := h
    obtain ⟨he, hc⟩ := dwStep_of_ne_zero c d i hne
    simp only [dwProc, he, hc, dwStep_skip, ih _ _ hrest, sumDelta_cons]
    have harith : d + delta i + sumDelta rest = d + (delta i + sumDelta rest) := by omega
    rw [harith]
    simp

theorem dwStep_markers (c : List String) (d : Int) (i : Item) :
    ((dwStep c d i).1).filter isMarker = [i].filter isMarker := by
  unfold dwStep
  by_cases h1 : i = BLOCK_BEGIN
  · subst h1
    by_cases hd : d = 0 <;>
      by_cases hc : c = [] <;>
        simp [hd, hc, isMarker, BLOCK_BEGIN, BLOCK_END]
  · by_cases h2 : i = BLOCK_END
    · subst h2
      by_cases hd : d = 0 <;>
        by_cases hc : c = [] <;>
          simp [h1, hd, hc, isMarker, BLOCK_BEGIN, BLOCK_END]
    · have hm : isMarker i = false := by
        unfold isMarker
        simp [h1, h2]
      by_cases hd : d = 0
      · cases i with
        | str s => simp [dwStep, hd, hm, h1, h2, isMarker]
        | int n =>
          have hn1 : ¬ n = -1 := by simpa [BLOCK_BEGIN] using h1
          have hn2 : ¬ n = -2 := by simpa [BLOCK_END] using h2
          by_cases hc : c = [] <;>
            simp [dwStep, hn1, hn2, hd, hc, hm, isMarker, BLOCK_BEGIN, BLOCK_END]
      · simp [dwStep, h1, h2, hd, hm]

theorem dwProc_markers (l : List Item) (c : List String) (d : Int) :
    ((dwProc c d l).1).filter isMarker = l.filter isMarker := by
  induction l generalizing c d with
  | nil => simp [dwProc]
  | cons i rest ih =>
    simp only [dwProc, List.filter_append, ih, dwStep_markers, List.filter_cons]
    cases him : isMarker i <;> simp [him]

theorem do_whitespace_markers (l : List Item) :
    (do_whitespace l).filter isMarker = l.filter isMarker := by
  unfold do_whitespace
  rw [List.filter_append, dwProc_markers]
  simp [isMarker, BLOCK_BEGIN, BLOCK_END]

/-- The normalization pass preserves proper nesting of block markers. -/
theorem do_whitespace_balanced {l : List Item} (h : balanced l) :
    balanced (do_whitespace l) := by
  rw [balanced_iff_filter, do_whitespace_markers, ← balanced_iff_filter]
  exact h

/-! Characterization of normalized text runs.  The output of
`do_whitespace_internalChars` contains no line feed and no tab, has no
two adjacent spaces, and neither starts nor ends with a space; each
stage of the pipeline is the identity on input already of that shape,
which yields idempotence. -/

/-- No two adjacent space characters. -/
def noSS (l : List Char) : Prop := l.Chain' (fun a b => ¬ (a = ' ' ∧ b = ' '))

/-- Shape of a fully normalized character list. -/
def normChars (l : List Char) : Prop :=
  '\n' ∉ l ∧ '\t' ∉ l ∧ noSS l ∧ l.head? ≠ some ' ' ∧ l.getLast? ≠ some ' '

theorem mem_tabToSpace {c : Char} {l : List Char} (h : c ∈ tabToSpace l) :
    c = ' ' ∨ c ∈ l := by
  unfold tabToSpace at h
  obtain ⟨a, ha, rfl⟩ := List.mem_map.mp h
  by_cases hat : a = '\t'
  · left
    simp [hat]
  · right
    simpa [hat] using ha

theorem not_tab_tabToSpace (l : List Char) : '\t' ∉ tabToSpace l := by
  intro h
  obtain ⟨a, _, hfa⟩ := List.mem_map.mp h
  by_cases hat : a = '\t' <;> simp [hat] at hfa

theorem mem_lfToSpace {c : Char} {l : List Char} (h : c ∈ lfToSpace l) :
    c = ' ' ∨ c ∈ l := by
  unfold lfToSpace at h
  obtain ⟨a, ha, rfl⟩ := List.mem_map.mp h
  by_cases hal : a = '\n'
  · left
    simp [hal]
  · right
    simpa [hal] using ha

theorem not_lf_lfToSpace (l : List Char) : '\n' ∉ lfToSpace l := by
  intro h
  obtain ⟨a, _, hfa⟩ := List.mem_map.mp h
  by_cases hal : a = '\n' <;> simp [hal] at hfa

theorem mem_collapseSpacesGo {c : Char} {l : List Char} {b : Bool}
    (h : c ∈ collapseSpacesGo b l) : c ∈ l := by
  induction l generalizing b with
  | nil => simpa [collapseSpacesGo] using h
  | cons a rest ih =>
    by_cases ha : a = ' '
    · cases b with
      | true =>
        simp only [collapseSpacesGo, ha, if_pos rfl] at h
        exact List.mem_cons_of_mem _ (ih (by simpa [ha] using h))
      | false =>
        simp only [collapseSpacesGo, ha, if_pos rfl] at h
        rcases List.mem_cons.mp h with h1 | h1
        · simp [h1, ha]
        · exact List.mem_cons_of_mem _ (ih h1)
    · simp only [collapseSpacesGo, if_neg ha] at h
      rcases List.mem_cons.mp h with h1 | h1
      · simp [h1]
      · exact List.mem_cons_of_mem _ (ih h1)

theorem head_dropWhile {α : Type} {p : α → Bool} {l : List α} {a : α}
    (h : (l.dropWhile p).head? = some a) : p a = false := by
  induction l with
  | nil => simp [List.dropWhile] at h
  | cons c rest ih =>
    by_cases hc : p c = true
    · rw [List.dropWhile_cons_of_pos hc] at h
      exact ih h
    · rw [List.dropWhile_cons_of_neg hc] at h
      simp only [List.head?_cons, Option.some.injEq] at h
      rw [← h]
      simpa using hc

theorem mem_dropWhile {α : Type} {p : α → Bool} {l : List α} {a : α}
    (h : a ∈ l.dropWhile p) : a ∈ l := by
  induction l with
  | nil => simpa [List.dropWhile] using h
  | cons c rest ih =>
    by_cases hc : p c = true
    · rw [List.dropWhile_cons_of_pos hc] at h
      exact List.mem_cons_of_mem _ (ih h)
    · rwa [List.dropWhile_cons_of_neg hc] at h

theorem mem_stripEnds {α : Type} {p : α → Bool} {l : List α} {a : α}
    (h : a ∈ stripEnds p l) : a ∈ l := by
  unfold stripEnds at h
  rw [List.mem_reverse] at h
  have h2 := mem_dropWhile h
  rw [List.mem_reverse] at h2
  exact mem_dropWhile h2

theorem mem_stripSpaces {l : List Char} {a : Char} (h : a ∈ stripSpaces l) : a ∈ l :=
  mem_stripEnds h

theorem head_collapseSpacesGo_true (l : List Char) :
    (collapseSpacesGo true l).head? ≠ some ' ' := by
  induction l with
  | nil => simp [collapseSpacesGo]
  | cons c rest ih =>
    by_cases hc : c = ' '
    · simpa [collapseSpacesGo, hc] using ih
    · simp [collapseSpacesGo, hc]

theorem noSS_collapseSpacesGo (l : List Char) (b : Bool) :
    noSS (collapseSpacesGo b l) := by
  induction l generalizing b with
  | nil => simp [collapseSpacesGo, noSS]
  | cons c rest ih =>
    by_cases hc : c = ' '
    · subst hc
      cases b with
      | true => simpa [collapseSpacesGo] using ih true
      | false =>
        have hstep : collapseSpacesGo false (' ' :: rest) = ' ' :: collapseSpacesGo true rest := by
          simp [collapseSpacesGo]
        rw [hstep, noSS, List.chain'_cons']
        refine ⟨?_, ih true⟩
        intro y hy hxy
        exact head_collapseSpacesGo_true rest (by rw [hy, hxy.2])
    · simp only [collapseSpacesGo, if_neg hc]
      rw [noSS, List.chain'_cons']
      exact ⟨fun y _ hxy => hc hxy.1, ih false⟩

theorem noSS_dropWhile {p : Char → Bool} {l : List Char} (h : noSS l) :
    noSS (l.dropWhile p) := by
  induction l with
  | nil => simpa [List.dropWhile] using h
  | cons c rest ih =>
    by_cases hc : p c = true
    · rw [List.dropWhile_cons_of_pos hc]
      exact ih ((List.chain'_cons'.mp h).2)
    · rwa [List.dropWhile_cons_of_neg hc]

theorem noSS_reverse {l : List Char} (h : noSS l) : noSS l.reverse := by
  rw [noSS, List.chain'_reverse]
  exact List.Chain'.imp (fun a b hab hba => hab ⟨hba.2, hba.1⟩) h

theorem noSS_stripSpaces {l : List Char} (h : noSS l) : noSS (stripSpaces l) := by
  unfold stripSpaces stripEnds
  exact noSS_reverse (noSS_dropWhile (noSS_reverse (noSS_dropWhile h)))

theorem head_stripEnds {α : Type} {p : α → Bool} {l : List α} {a : α}
    (h : (stripEnds p l).head? = some a) : p a = false := by
  unfold stripEnds at h
  set A := l.dropWhile p with hA
  set B := A.reverse.dropWhile p with hB
  have hsplit : A.reverse.takeWhile p ++ B = A.reverse := by
    rw [hB]
    exact List.takeWhile_append_dropWhile _ _
  cases hBr : B.reverse with
  | nil => rw [hBr] at h; simp at h
  | cons x xs =>
    rw [hBr] at h
    simp only [List.head?_cons, Option.some.injEq] at h
    have hAeq : A = B.reverse ++ (A.reverse.takeWhile p).reverse := by
      have := congrArg List.reverse hsplit
      simpa [List.reverse_append] using this.symm
    have hheadA : A.head? = some x := by
      rw [hAeq, hBr]
      simp
    have hpa := head_dropWhile (p := p) (l := l) (by rw [← hA]; exact hheadA)
    rw [← h]
    exact hpa

theorem getLast_stripEnds {α : Type} {p : α → Bool} {l : List α} {a : α}
    (h : (stripEnds p l).getLast? = some a) : p a = false := by
  unfold stripEnds at h
  rw [List.getLast?_reverse] at h
  exact head_dropWhile h

theorem head_stripSpaces (l : List Char) : (stripSpaces l).head? ≠ some ' ' := by
  intro h
  have := head_stripEnds (p := fun c => decide (c = ' ')) h
  simp at this

theorem getLast_stripSpaces (l : List Char) : (stripSpaces l).getLast? ≠ some ' ' := by
  intro h
  have := getLast_stripEnds (p := fun c => decide (c = ' ')) h
  simp at this

/-! Identity of the pipeline stages on already-normalized input. -/

theorem mem_removeWsBeforeLF {c : Char} {l : List Char} (h : c ∈ removeWsBeforeLF l) :
    c ∈ l := by
  induction l with
  | nil => simpa [removeWsBeforeLF] using h
  | cons a rest ih =>
    simp only [removeWsBeforeLF] at h
    by_cases hcond : isSpaceTab a = true ∧ (removeWsBeforeLF rest).head? = some '\n'
    · rw [if_pos hcond] at h
      exact List.mem_cons_of_mem _ (ih h)
    · rw [if_neg hcond] at h
      rcases List.mem_cons.mp h with h1 | h1
      · simp [h1]
      · exact List.mem_cons_of_mem _ (ih h1)

theorem removeWsBeforeLF_id {l : List Char} (h : '\n' ∉ l) : removeWsBeforeLF l = l := by
  induction l with
  | nil => rfl
  | cons a rest ih =>
    have hrest : '\n' ∉ rest := fun hm => h (List.mem_cons_of_mem _ hm)
    simp only [removeWsBeforeLF, ih hrest]
    rw [if_neg]
    rintro ⟨-, hhead⟩
    have : '\n' ∈ rest := by
      cases rest with
      | nil => simp at hhead
      | cons x xs =>
        simp only [List.head?_cons, Option.some.injEq] at hhead
        simp [hhead]
    exact hrest this

theorem removeWsAfterLF_id {l : List Char} (h : '\n' ∉ l) :
    removeWsAfterLFGo false l = l := by
  induction l with
  | nil => rfl
  | cons a rest ih =>
    have ha : ¬ a = '\n' := fun he => h (by simp [he])
    have hrest : '\n' ∉ rest := fun hm => h (List.mem_cons_of_mem _ hm)
    simp only [removeWsAfterLFGo, if_neg ha]
    rw [if_neg (by simp), ih hrest]

theorem collapseLF_id {l : List Char} (b : Bool) (h : '\n' ∉ l) :
    collapseLFGo b l = l := by
  induction l generalizing b with
  | nil => rfl
  | cons a rest ih =>
    have ha : ¬ a = '\n' := fun he => h (by simp [he])
    have hrest : '\n' ∉ rest := fun hm => h (List.mem_cons_of_mem _ hm)
    simp only [collapseLFGo, if_neg ha, ih false hrest]

theorem zwsGo_id {l : List Char} (h : '\n' ∉ l) :
    zwsGo 0 false l = l ∧ zwsGo 0 true l = l := by
  induction l with
  | nil => exact ⟨rfl, rfl⟩
  | cons a rest ih =>
    have ha : ¬ a = '\n' := fun he => h (by simp [he])
    have hrest : '\n' ∉ rest := fun hm => h (List.mem_cons_of_mem _ hm)
    by_cases hz : a = zwsChar
    · subst hz
      have h1 : zwsGo 0 false (zwsChar :: rest) = zwsChar :: zwsGo 0 true rest := by
        simp [zwsGo, ha]
      have h2 : zwsGo 0 true (zwsChar :: rest) = zwsChar :: zwsGo 0 true rest := by
        simp [zwsGo, ha]
      rw [h1, h2, (ih hrest).2]
      exact ⟨rfl, rfl⟩
    · have h1 : zwsGo 0 false (a :: rest) = a :: zwsGo 0 false rest := by
        simp [zwsGo, ha, hz]
      have h2 : zwsGo 0 true (a :: rest) = a :: zwsGo 0 false rest := by
        simp [zwsGo, ha, hz]
      rw [h1, h2, (ih hrest).1]
      exact ⟨rfl, rfl⟩

theorem tabToSpace_id {l : List Char} (h : '\t' ∉ l) : tabToSpace l = l := by
  induction l with
  | nil => rfl
  | cons a rest ih =>
    have ha : ¬ a = '\t' := fun he => h (by simp [he])
    have hrest : '\t' ∉ rest := fun hm => h (List.mem_cons_of_mem _ hm)
    simp only [tabToSpace, List.map_cons, if_neg ha]
    rw [show List.map (fun c => if c = '\t' then ' ' else c) rest = tabToSpace rest from rfl,
      ih hrest]

theorem lfToSpace_id {l : List Char} (h : '\n' ∉ l) : lfToSpace l = l := by
  induction l with
  | nil => rfl
  | cons a rest ih =>
    have ha : ¬ a = '\n' := fun he => h (by simp [he])
    have hrest : '\n' ∉ rest := fun hm => h (List.mem_cons_of_mem _ hm)
    simp only [lfToSpace, List.map_cons, if_neg ha]
    rw [show List.map (fun c => if c = '\n' then ' ' else c) rest = lfToSpace rest from rfl,
      ih hrest]

theorem collapseSpacesGo_id {l : List Char} (h : noSS l) :
    collapseSpacesGo false l = l ∧
      (l.head? ≠ some ' ' → collapseSpacesGo true l = l) := by
  induction l with
  | nil => exact ⟨rfl, fun _ => rfl⟩
  | cons a rest ih =>
    have htail : noSS rest := (List.chain'_cons'.mp h).2
    have hihf := (ih htail).1
    by_cases ha : a = ' '
    · subst ha
      have hheadrest : rest.head? ≠ some ' ' := by
        intro hh
        cases rest with
        | nil => simp at hh
        | cons x xs =>
          simp only [List.head?_cons, Option.some.injEq] at hh
          exact (List.chain'_cons'.mp h).1 x (by simp) ⟨rfl, hh⟩
      have hiht := (ih htail).2 hheadrest
      have hstep : collapseSpacesGo false (' ' :: rest) = ' ' :: collapseSpacesGo true rest := by
        simp [collapseSpacesGo]
      constructor
      · rw [hstep, hiht]
      · intro hhead
        simp at hhead
    · constructor
      · simp only [collapseSpacesGo, if_neg ha, hihf]
      · intro _
        simp only [collapseSpacesGo, if_neg ha, hihf]

theorem dropWhile_id {α : Type} {p : α → Bool} {l : List α}
    (h : ∀ a, l.head? = some a → p a = false) : l.dropWhile p = l := by
  cases l with
  | nil => rfl
  | cons a rest =>
    rw [List.dropWhile_cons_of_neg]
    simp [h a rfl]

theorem stripEnds_id {α : Type} {p : α → Bool} {l : List α}
    (h1 : ∀ a, l.head? = some a → p a = false)
    (h2 : ∀ a, l.getLast? = some a → p a = false) : stripEnds p l = l := by
  unfold stripEnds
  rw [dropWhile_id h1]
  have e2 : l.reverse.dropWhile p = l.reverse :=
    dropWhile_id (fun a ha => by
      rw [List.head?_reverse] at ha
      exact h2 a ha)
  rw [e2, List.reverse_reverse]

theorem stripSpaces_id {l : List Char} (h1 : l.head? ≠ some ' ')
    (h2 : l.getLast? ≠ some ' ') : stripSpaces l = l := by
  unfold stripSpaces stripEnds
  have e1 : l.dropWhile (fun c => decide (c = ' ')) = l :=
    dropWhile_id (fun a ha => by
      simp only [decide_eq_false_iff_not]
      intro hsp
      rw [hsp] at ha
      exact h1 ha)
  rw [e1]
  have e2 : l.reverse.dropWhile (fun c => decide (c = ' ')) = l.reverse :=
    dropWhile_id (fun a ha => by
      simp only [decide_eq_false_iff_not]
      intro hsp
      rw [List.head?_reverse, hsp] at ha
      exact h2 ha)
  rw [e2, List.reverse_reverse]

/-! Production of the normalized shape, and idempotence. -/

theorem normChars_do_whitespace_internalChars (l : List Char) :
    normChars (do_whitespace_internalChars l) := by
  unfold do_whitespace_internalChars
  set m6 := lfToSpace (tabToSpace (segment_break_transformationChars
    (removeWsAfterLFGo false (removeWsBeforeLF l)))) with hm6
  set m7 := collapseSpacesGo false m6 with hm7
  refine ⟨?_, ?_, ?_, ?_, ?_⟩
  · intro hmem
    exact not_lf_lfToSpace _ (mem_collapseSpacesGo (mem_stripSpaces hmem))
  · intro hmem
    have h7 := mem_collapseSpacesGo (mem_stripSpaces hmem)
    rw [hm6] at h7
    rcases mem_lfToSpace h7 with he | he
    · exact absurd he (by decide)
    · exact not_tab_tabToSpace _ he
  · exact noSS_stripSpaces (noSS_collapseSpacesGo m6 false)
  · exact head_stripSpaces m7
  · exact getLast_stripSpaces m7

theorem do_whitespace_internalChars_id {l : List Char} (h : normChars l) :
    do_whitespace_internalChars l = l := by
  obtain ⟨hlf, htab, hss, hhead, hlast⟩ := h
  unfold do_whitespace_internalChars segment_break_transformationChars
  rw [removeWsBeforeLF_id hlf, removeWsAfterLF_id hlf, collapseLF_id false hlf,
    (zwsGo_id hlf).1, tabToSpace_id htab, lfToSpace_id hlf,
    (collapseSpacesGo_id hss).1, stripSpaces_id hhead hlast]

theorem do_whitespace_internalChars_idem (l : List Char) :
    do_whitespace_internalChars (do_whitespace_internalChars l) =
      do_whitespace_internalChars l :=
  do_whitespace_internalChars_id (normChars_do_whitespace_internalChars l)

/-! Unfolding equations for the walker, and the balance invariant. -/

theorem itc_text_eq (cfg : Cfg) (s : String) (parentTag : Option String) (pm first : Bool) :
    inner_text_collection cfg (Node.text s) parentTag pm first =
      if first = false ∧ is_rendered parentTag (Node.text s) = false then []
      else [Item.str s] := by
  rw [inner_text_collection]

theorem itc_comment_eq (cfg : Cfg) (s : String) (parentTag : Option String) (pm first : Bool) :
    inner_text_collection cfg (Node.comment s) parentTag pm first =
      if first = false ∧ is_rendered parentTag (Node.comment s) = false then []
      else [Item.str s] := by
  rw [inner_text_collection]

theorem itc_element_eq (cfg : Cfg) (name : String) (attrs : List (String × String))
    (children : List Node) (parentTag : Option String) (pm first : Bool) :
    inner_text_collection cfg (Node.element name attrs children) parentTag pm first =
      if first = false ∧ is_rendered parentTag (Node.element name attrs children) = false then []
      else
        applyTagRules cfg name attrs
          (pm || is_pre_rendered (Node.element name attrs children))
          (collectChildren cfg children (some name)
            (pm || is_pre_rendered (Node.element name attrs children))) := by
  rw [inner_text_collection]

theorem collectChildren_nil (cfg : Cfg) (parentTag : Option String) (pm : Bool) :
    collectChildren cfg [] parentTag pm = [] := by
  rw [collectChildren]

theorem collectChildren_cons (cfg : Cfg) (c : Node) (cs : List Node)
    (parentTag : Option String) (pm : Bool) :
    collectChildren cfg (c :: cs) parentTag pm =
      inner_text_collection cfg c parentTag pm false ++ collectChildren cfg cs parentTag pm := by
  rw [collectChildren]

theorem nonnegFrom_mono {l : List Item} {d d' : Int} (hdd : d ≤ d')
    (h : nonnegFrom d l = true) : nonnegFrom d' l = true := by
  induction l generalizing d d' with
  | nil => rfl
  | cons i rest ih =>
    simp only [nonnegFrom, Bool.and_eq_true, decide_eq_true_eq] at h ⊢
    exact ⟨by omega, ih (by omega) h.2⟩

theorem delta_str (s : String) : delta (Item.str s) = 0 := by
  simp [delta, BLOCK_BEGIN, BLOCK_END]

theorem delta_int {n : Int} (h1 : ¬ n = -1) (h2 : ¬ n = -2) : delta (Item.int n) = 0 := by
  simp [delta, BLOCK_BEGIN, BLOCK_END, h1, h2]

theorem balanced_single {i : Item} (hd : delta i = 0) : balanced [i] := by
  constructor
  · simp [nonnegFrom, hd]
  · simp [sumDelta, hd]

theorem balanced_cons_zero {i : Item} {l : List Item} (hd : delta i = 0)
    (h : balanced l) : balanced (i :: l) := by
  obtain ⟨h1, h2⟩ := h
  constructor
  · simp [nonnegFrom, hd, h1]
  · simp [sumDelta_cons, hd, h2]

theorem balanced_block {l : List Item} (h : balanced l) :
    balanced (BLOCK_BEGIN :: Item.int 1 :: l ++ [Item.int 1, BLOCK_END]) := by
  obtain ⟨h1, h2⟩ := h
  have e : BLOCK_BEGIN :: Item.int 1 :: l ++ [Item.int 1, BLOCK_END] =
      ([BLOCK_BEGIN, Item.int 1] ++ l) ++ [Item.int 1, BLOCK_END] := by simp
  have ha : nonnegFrom 0 [BLOCK_BEGIN, Item.int 1] = true := by decide
  have hb : sumDelta [BLOCK_BEGIN, Item.int 1] = 1 := by decide
  have hc : sumDelta [Item.int 1, BLOCK_END] = -1 := by decide
  constructor
  · rw [e, nonnegFrom_append, nonnegFrom_append, sumDelta_append, ha, hb, h2]
    have h1b : nonnegFrom (0 + 1) l = true := nonnegFrom_mono (by omega) h1
    rw [h1b]
    norm_num
    exact nonnegFrom_mono (by omega) (by decide : nonnegFrom 1 [Item.int 1, BLOCK_END] = true)
  · rw [e, sumDelta_append, sumDelta_append, hb, hc, h2]
    omega

theorem brRule_balanced {items : List Item} (h : balanced items) (name : String) :
    balanced (brRule name items) := by
  unfold brRule
  split
  · exact ⟨by decide, by decide⟩
  · exact h

theorem pRule_balanced {cfg : Cfg} {items : List Item} (h : balanced items)
    (hr : 1 ≤ cfg.required_line_break_count) (name : String) :
    balanced (pRule cfg name items) := by
  unfold pRule
  split
  · have hd : delta (Item.int cfg.required_line_break_count) = 0 :=
      delta_int (by omega) (by omega)
    exact balanced_cons_zero hd (balanced_append h (balanced_single hd))
  · exact h

theorem balanced_imgMatch {items : List Item} (h : balanced items) (o : Option String) :
    balanced (match o with
      | some v => [Item.str (" " ++ v ++ " ")]
      | none => items) := by
  cases o with
  | some v => exact balanced_single (delta_str _)
  | none => exact h

theorem imgRule_balanced {cfg : Cfg} {items : List Item} (h : balanced items)
    (name : String) (attrs : List (String × String)) :
    balanced (imgRule cfg name attrs items) := by
  unfold imgRule
  split
  · exact balanced_imgMatch h _
  · exact h

theorem blockRule_balanced {items : List Item} (h : balanced items)
    (name : String) (pm : Bool) : balanced (blockRule name pm items) := by
  unfold blockRule
  split
  · split
    · exact balanced_block (do_whitespace_balanced h)
    · exact balanced_block h
  · exact h

theorem applyTagRules_balanced {cfg : Cfg} {items : List Item} (h : balanced items)
    (hr : 1 ≤ cfg.required_line_break_count) (name : String)
    (attrs : List (String × String)) (pm : Bool) :
    balanced (applyTagRules cfg name attrs pm items) := by
  unfold applyTagRules
  exact blockRule_balanced (imgRule_balanced (pRule_balanced (brRule_balanced h name) hr name)
    name attrs) name pm

mutual

theorem inner_text_collection_balanced (cfg : Cfg) (el : Node) (parentTag : Option String)
    (pm first : Bool) (hr : 1 ≤ cfg.required_line_break_count) :
    balanced (inner_text_collection cfg el parentTag pm first) := by
  cases el with
  | text s =>
    rw [itc_text_eq]
    split
    · exact balanced_nil
    · exact balanced_single (delta_str _)
  | comment s =>
    rw [itc_comment_eq]
    split
    · exact balanced_nil
    · exact balanced_single (delta_str _)
  | element name attrs children =>
    rw [itc_element_eq]
    split
    · exact balanced_nil
    · exact applyTagRules_balanced
        (collectChildren_balanced cfg children (some name) _ hr) hr name attrs _

theorem collectChildren_balanced (cfg : Cfg) (children : List Node)
    (parentTag : Option String) (pm : Bool) (hr : 1 ≤ cfg.required_line_break_count) :
    balanced (collectChildren cfg children parentTag pm) := by
  cases children with
  | nil =>
    rw [collectChildren_nil]
    exact balanced_nil
  | cons c cs =>
    rw [collectChildren_cons]
    exact balanced_append
      (inner_text_collection_balanced cfg c parentTag pm false hr)
      (collectChildren_balanced cfg cs parentTag pm hr)

end

/-! Normalized-string tracking through the whitespace pass: `normStr` is
the shape of strings produced by `do_whitespace_internal`, and
`intNorm d l` says every text item of `l` that the loop processes at a
nonzero counter (i.e. inside a block region) already has that shape. -/

/-- Shape of strings the final result may expose: no line feed, and no
leading or trailing space. -/
def normStr (s : String) : Prop :=
  '\n' ∉ s.data ∧ s.data.head? ≠ some ' ' ∧ s.data.getLast? ≠ some ' '

theorem normStr_dwi (l : List String) : normStr (do_whitespace_internal l) := by
  obtain ⟨h1, -, -, h4, h5⟩ := normChars_do_whitespace_internalChars (String.join l).data
  exact ⟨h1, h4, h5⟩

theorem normStr_empty : normStr "" := by
  refine ⟨?_, ?_, ?_⟩ <;> simp [String.data]

/-- Every text item of the list is normalized. -/
def allNorm (l : List Item) : Prop := ∀ s, Item.str s ∈ l → normStr s

/-- Every text item sitting inside a block region (counter `≠ 0` when it
is processed, starting from counter `d`) is normalized. -/
def intNorm (d : Int) : List Item → Prop
  | [] => True
  | Item.str s :: rest => (¬ d = 0 → normStr s) ∧ intNorm d rest
  | Item.int n :: rest => intNorm (d + delta (Item.int n)) rest

theorem intNorm_append {A B : List Item} {d : Int} (hA : intNorm d A)
    (hB : intNorm (d + sumDelta A) B) : intNorm d (A ++ B) := by
  induction A generalizing d with
  | nil => simpa [sumDelta_nil] using hB
  | cons i rest ih =>
    cases i with
    | str s =>
      obtain ⟨h1, h2⟩ := hA
      refine ⟨h1, ih h2 ?_⟩
      rw [sumDelta_cons, delta_str] at hB
      simpa using hB
    | int n =>
      simp only [List.cons_append, intNorm] at hA ⊢
      apply ih hA
      rw [sumDelta_cons] at hB
      have e : d + (delta (Item.int n) + sumDelta rest) =
          d + delta (Item.int n) + sumDelta rest := by omega
      rw [e] at hB
      exact hB

theorem allNorm_intNorm {l : List Item} (h : allNorm l) (d : Int) : intNorm d l := by
  induction l generalizing d with
  | nil => trivial
  | cons i rest ih =>
    cases i with
    | str s =>
      exact ⟨fun _ => h s (by simp), ih (fun t ht => h t (List.mem_cons_of_mem _ ht)) d⟩
    | int n =>
      exact ih (fun t ht => h t (List.mem_cons_of_mem _ ht)) _

theorem dwStep_strMem {c : List String} {d : Int} {i : Item} {s : String}
    (h : Item.str s ∈ (dwStep c d i).1) :
    s = do_whitespace_internal c ∨ (¬ d = 0 ∧ i = Item.str s) := by
  by_cases hd : d = 0
  · left
    subst hd
    cases i with
    | str t => simp [dwStep, BLOCK_BEGIN, BLOCK_END] at h
    | int n =>
      by_cases hc : c = []
      · by_cases hn1 : n = -1
        · simp [dwStep, hc, hn1, BLOCK_BEGIN, BLOCK_END] at h
        · by_cases hn2 : n = -2 <;>
            simp [dwStep, hc, hn1, hn2, BLOCK_BEGIN, BLOCK_END] at h
      · by_cases hn1 : n = -1
        · simp [dwStep, hc, hn1, BLOCK_BEGIN, BLOCK_END] at h
          exact h
        · by_cases hn2 : n = -2 <;>
            simp [dwStep, hc, hn1, hn2, BLOCK_BEGIN, BLOCK_END] at h <;>
            exact h
  · obtain ⟨he, -⟩ := dwStep_of_ne_zero c d i hd
    rw [he] at h
    simp only [List.mem_singleton] at h
    cases i with
    | str t =>
      right
      exact ⟨hd, h.symm⟩
    | int n => simp at h

theorem dwProc_strNorm {l : List Item} {c : List String} {d : Int}
    (hl : intNorm d l) :
    ∀ s, Item.str s ∈ (dwProc c d l).1 → normStr s := by
  induction l generalizing c d with
  | nil =>
    intro s hs
    simp [dwProc] at hs
  | cons i rest ih =>
    intro s hs
    simp only [dwProc, List.mem_append] at hs
    rcases hs with hs | hs
    · rcases dwStep_strMem hs with he | ⟨hdne, hie⟩
      · rw [he]
        exact normStr_dwi c
      · rw [hie] at hl
        exact hl.1 hdne
    · refine ih ?_ s hs
      rw [dwStep_skip]
      cases i with
      | str t =>
        rw [delta_str, add_zero]
        exact hl.2
      | int n => exact hl

theorem do_whitespace_allNorm {l : List Item} (h : intNorm 0 l) :
    allNorm (do_whitespace l) := by
  intro s hs
  unfold do_whitespace at hs
  simp only [List.mem_append, List.mem_singleton] at hs
  rcases hs with hs | hs
  · exact dwProc_strNorm h s hs
  · have he : s = do_whitespace_internal (dwProc [] 0 l).2.1 := by
      injection hs
    rw [he]
    exact normStr_dwi _

mutual

/-- Whether a tree contains no whitespace-preserving element
(`listing`, `plaintext`, `pre`, `xmp`) and no `br` element. -/
def noPreBr : Node → Bool
  | Node.element t a cs =>
    (!is_pre_rendered (Node.element t a cs) && !(decide (t = "br"))) && noPreBrList cs
  | Node.text _ => true
  | Node.comment _ => true

/-- `noPreBr` on every tree of a list. -/
def noPreBrList : List Node → Bool
  | [] => true
  | c :: cs => noPreBr c && noPreBrList cs

end

theorem intNorm_cast {d d' : Int} {l : List Item} (e : d' = d) (h : intNorm d l) :
    intNorm d' l := by
  rw [e]
  exact h

theorem intNorm_intPair (d n m : Int) : intNorm d [Item.int n, Item.int m] := trivial

theorem intNorm_intSingle (d n : Int) : intNorm d [Item.int n] := trivial

theorem brRule_id {name : String} (items : List Item) (h : ¬ name = "br") :
    brRule name items = items := by
  unfold brRule
  rw [if_neg h]

theorem pRule_intNorm {cfg : Cfg} {items : List Item} (hn : intNorm 0 items)
    (hb : balanced items) (hr : 1 ≤ cfg.required_line_break_count) (name : String) :
    intNorm 0 (pRule cfg name items) := by
  unfold pRule
  split
  · have hd : delta (Item.int cfg.required_line_break_count) = 0 :=
      delta_int (by omega) (by omega)
    show intNorm (0 + delta (Item.int cfg.required_line_break_count))
      (items ++ [Item.int cfg.required_line_break_count])
    refine intNorm_cast (by omega : (0 : Int) + delta (Item.int cfg.required_line_break_count) = 0 + delta (Item.int cfg.required_line_break_count)) ?_
    rw [hd, add_zero]
    exact intNorm_append hn (intNorm_intSingle _ _)
  · exact hn

theorem imgMatch_intNorm {items : List Item} (hn : intNorm 0 items) (o : Option String) :
    intNorm 0 (match o with
      | some v => [Item.str (" " ++ v ++ " ")]
      | none => items) := by
  cases o with
  | some v => exact ⟨fun h0 => absurd rfl h0, trivial⟩
  | none => exact hn

theorem imgRule_intNorm {cfg : Cfg} {items : List Item} (hn : intNorm 0 items)
    (name : String) (attrs : List (String × String)) :
    intNorm 0 (imgRule cfg name attrs items) := by
  unfold imgRule
  split
  · exact imgMatch_intNorm hn _
  · exact hn

theorem blockRule_intNorm {items : List Item} (hn : intNorm 0 items)
    (hb : balanced items) (name : String) :
    intNorm 0 (blockRule name false items) := by
  unfold blockRule
  split
  · have e : (if (false : Bool) = false then do_whitespace items else items) =
        do_whitespace items := if_pos rfl
    rw [e]
    have hXn : allNorm (do_whitespace items) := do_whitespace_allNorm hn
    have hXb : balanced (do_whitespace items) := do_whitespace_balanced hb
    simp only [BLOCK_BEGIN, BLOCK_END]
    show intNorm (0 + delta (Item.int (-1)) + delta (Item.int 1))
      (do_whitespace items ++ [Item.int 1, Item.int (-2)])
    exact intNorm_append (allNorm_intNorm hXn _) (intNorm_intPair _ 1 (-2))
  · exact hn

theorem applyTagRules_intNorm {cfg : Cfg} {name : String} {attrs : List (String × String)}
    {items : List Item} (hbr : ¬ name = "br") (hn : intNorm 0 items)
    (hb : balanced items) (hr : 1 ≤ cfg.required_line_break_count) :
    intNorm 0 (applyTagRules cfg name attrs false items) := by
  unfold applyTagRules
  rw [brRule_id items hbr]
  exact blockRule_intNorm
    (imgRule_intNorm (pRule_intNorm hn hb hr name) name attrs)
    (imgRule_balanced (pRule_balanced hb hr name) name attrs) name

mutual

theorem inner_text_collection_intNorm (cfg : Cfg) (el : Node) (parentTag : Option String)
    (first : Bool) (hnb : noPreBr el = true) (hr : 1 ≤ cfg.required_line_break_count) :
    intNorm 0 (inner_text_collection cfg el parentTag false first) := by
  cases el with
  | text s =>
    rw [itc_text_eq]
    split
    · trivial
    · exact ⟨fun h0 => absurd rfl h0, trivial⟩
  | comment s =>
    rw [itc_comment_eq]
    split
    · trivial
    · exact ⟨fun h0 => absurd rfl h0, trivial⟩
  | element name attrs children =>
    rw [noPreBr] at hnb
    simp only [Bool.and_eq_true, Bool.not_eq_true'] at hnb
    obtain ⟨⟨hpre, hbr⟩, hcs⟩ := hnb
    rw [itc_element_eq]
    split
    · trivial
    · have hpm : (false || is_pre_rendered (Node.element name attrs children)) = false := by
        rw [hpre]
        rfl
      rw [hpm]
      exact applyTagRules_intNorm (by simpa using hbr)
        (collectChildren_intNorm cfg children (some name) hcs hr)
        (collectChildren_balanced cfg children (some name) false hr) hr

theorem collectChildren_intNorm (cfg : Cfg) (children : List Node)
    (parentTag : Option String) (hnb : noPreBrList children = true)
    (hr : 1 ≤ cfg.required_line_break_count) :
    intNorm 0 (collectChildren cfg children parentTag false) := by
  cases children with
  | nil =>
    rw [collectChildren_nil]
    trivial
  | cons c cs =>
    rw [collectChildren_cons]
    rw [noPreBrList] at hnb
    simp only [Bool.and_eq_true] at hnb
    refine intNorm_append
      (inner_text_collection_intNorm cfg c parentTag false hnb.1 hr) ?_
    have hbal := inner_text_collection_balanced cfg c parentTag false false hr
    exact intNorm_cast (by rw [hbal.2]; omega)
      (collectChildren_intNorm cfg cs parentTag hnb.2 hr)

end

/-! Facts about the finalizer stages, leading to the leading/trailing
whitespace analysis of `get_textContent`. -/

theorem gtc_filter_strMem {y : List Item} {s : String} (h : Item.str s ∈ gtc_filter y) :
    Item.str s ∈ y ∧ ¬ s = "" := by
  unfold gtc_filter at h
  rw [List.mem_filter] at h
  obtain ⟨hmem, hcond⟩ := h
  refine ⟨hmem, ?_⟩
  intro he
  subst he
  simp [BLOCK_BEGIN, BLOCK_END] at hcond

theorem join_data (L : List String) : (String.join L).data = (L.map String.data).flatten := by
  have aux : ∀ (M : List String) (a : String),
      (M.foldl (fun r s => r ++ s) a).data = a.data ++ (M.map String.data).flatten := by
    intro M
    induction M with
    | nil =>
      intro a
      simp
    | cons x xs ih =>
      intro a
      simp only [List.foldl_cons, ih, List.map_cons, List.flatten_cons]
      rw [show (a ++ x).data = a.data ++ x.data from rfl, List.append_assoc]
  have h := aux L ""
  simpa [String.join] using h

theorem join_cons_data (e : String) (L : List String) :
    (String.join (e :: L)).data = e.data ++ (String.join L).data := by
  rw [join_data, join_data]
  simp

theorem collapseGo_str_cons (c : Int) (s : String) (rest : List Item) :
    collapseGo c (Item.str s :: rest) = s :: collapseGo 0 rest := by
  rw [collapseGo]

theorem last_of_cons_emit {e t : String} {L : List String}
    (h : (String.join L).data.getLast? = t.data.getLast?) (htne : ¬ t = "") :
    (String.join (e :: L)).data.getLast? = t.data.getLast? := by
  rw [join_cons_data]
  have hneB : (String.join L).data ≠ [] := by
    intro hB
    rw [hB] at h
    have hnil : t.data = [] := List.getLast?_eq_none_iff.mp h.symm
    exact htne (String.ext hnil)
  rw [List.getLast?_append_of_ne_nil _ hneB]
  exact h

theorem collapse_join_last (results : List Item) (t : String) (htne : ¬ t = "") :
    ∀ c, results.getLast? = some (Item.str t) →
      (String.join (collapseGo c results)).data.getLast? = t.data.getLast? := by
  induction results with
  | nil =>
    intro c h
    simp at h
  | cons i rest ih =>
    intro c hlast
    cases rest with
    | nil =>
      rw [List.getLast?_singleton, Option.some.injEq] at hlast
      subst hlast
      rw [collapseGo_str_cons]
      rw [show collapseGo 0 ([] : List Item) = [] from rfl]
      rw [join_cons_data]
      simp [String.join]
    | cons j rest2 =>
      have hlast2 : (j :: rest2).getLast? = some (Item.str t) := by
        rw [← List.getLast?_cons_cons]
        exact hlast
      cases i with
      | str u =>
        rw [collapseGo_str_cons]
        exact last_of_cons_emit (ih 0 hlast2) htne
      | int n =>
        by_cases hn : n > c
        · rw [show collapseGo c (Item.int n :: j :: rest2) =
              String.mk (List.replicate (n - c).toNat '\n') :: collapseGo n (j :: rest2) from by
            simp [collapseGo, hn]]
          exact last_of_cons_emit (ih n hlast2) htne
        · rw [show collapseGo c (Item.int n :: j :: rest2) =
              "" :: collapseGo c (j :: rest2) from by
            simp [collapseGo, hn]]
          exact last_of_cons_emit (ih c hlast2) htne

/-- Absence of leading and trailing line feeds and spaces in a string. -/
def trimmedOk (r : String) : Prop :=
  r.data.head? ≠ some ' ' ∧ r.data.head? ≠ some '\n' ∧
    r.data.getLast? ≠ some ' ' ∧ r.data.getLast? ≠ some '\n'

theorem collapse_output_trimmed (results : List Item)
    (hstr : ∀ s, Item.str s ∈ results → normStr s ∧ ¬ s = "")
    (hhead : ∀ i, results.head? = some i → isIntItem i = false)
    (hlast : ∀ i, results.getLast? = some i → isIntItem i = false) :
    trimmedOk (String.join (collapseGo 0 results)) := by
  cases hres : results with
  | nil =>
    refine ⟨?_, ?_, ?_, ?_⟩ <;> simp [collapseGo, String.join]
  | cons i rest =>
    rw [← hres]
    have hheadi := hhead i (by rw [hres]; rfl)
    cases i with
    | int n => simp [isIntItem] at hheadi
    | str s =>
      have hs := hstr s (by rw [hres]; simp)
      obtain ⟨⟨hsLF, hsHead, hsLast⟩, hsne⟩ := hs
      obtain ⟨lastI, hlastEq⟩ : ∃ x, results.getLast? = some x := by
        rw [hres]
        exact Option.isSome_iff_exists.mp (List.getLast?_isSome.mpr (by simp))
      have hlasti := hlast lastI hlastEq
      cases lastI with
      | int n => simp [isIntItem] at hlasti
      | str t =>
        have ht := hstr t (List.mem_of_mem_getLast? (by rw [hlastEq]; rfl))
        obtain ⟨⟨htLF, htHead, htLast⟩, htne⟩ := ht
        have hheadData : (String.join (collapseGo 0 results)).data =
            s.data ++ (String.join (collapseGo 0 rest)).data := by
          rw [hres, collapseGo_str_cons, join_cons_data]
        have hlastData := collapse_join_last results t htne 0 hlastEq
        cases hsData : s.data with
        | nil => exact absurd (String.ext hsData) hsne
        | cons x xs =>
          have hx : (String.join (collapseGo 0 results)).data.head? = some x := by
            rw [hheadData, hsData]
            rfl
          have hxs : x ∈ s.data := by
            rw [hsData]
            simp
          refine ⟨?_, ?_, ?_, ?_⟩
          · rw [hx]
            intro he
            apply hsHead
            rw [hsData]
            simpa using he
          · rw [hx]
            intro he
            apply hsLF
            simp only [Option.some.injEq] at he
            rw [← he]
            exact hxs
          · rw [hlastData]
            exact htLast
          · rw [hlastData]
            intro he
            apply htLF
            exact List.mem_of_mem_getLast? (by rw [he]; rfl)

/-! Verbatim copying of a block-wrapped region through `do_whitespace`. -/

theorem staysPos_append (l m : List Item) (d : Int) :
    staysPos d (l ++ m) = (staysPos d l && staysPos (d + sumDelta l) m) := by
  induction l generalizing d with
  | nil => simp [staysPos, sumDelta_nil]
  | cons i rest ih =>
    simp only [List.cons_append, staysPos, List.append_eq, ih, sumDelta_cons,
      Bool.and_assoc, add_assoc]

theorem dwStep_BB (c : List String) :
    ∃ e0, dwStep c 0 BLOCK_BEGIN = (e0 ++ [BLOCK_BEGIN], [], 1) := by
  by_cases hc : c = []
  · exact ⟨[], by simp [dwStep, hc, BLOCK_BEGIN, BLOCK_END]⟩
  · exact ⟨[Item.str (do_whitespace_internal c)], by simp [dwStep, hc, BLOCK_BEGIN, BLOCK_END]⟩

theorem dwProc_single (c : List String) (d : Int) (i : Item) :
    dwProc c d [i] = dwStep c d i := by
  simp [dwProc]

/-- A block-wrapped region preceded by balanced items is copied verbatim
by `do_whitespace`: the wrapped region appears contiguously in the
output. -/
theorem dw_block_infix (before mid after : List Item)
    (hb : balanced before) (hm : balanced mid) :
    ∃ o1 o2, do_whitespace (before ++
        (BLOCK_BEGIN :: Item.int 1 :: mid ++ [Item.int 1, BLOCK_END]) ++ after) =
      o1 ++ (BLOCK_BEGIN :: Item.int 1 :: mid ++ [Item.int 1, BLOCK_END]) ++ o2 := by
  obtain ⟨hb1, hb2⟩ := hb
  have hM : staysPos 1 (Item.int 1 :: mid ++ [Item.int 1, BLOCK_END]) = true := by
    have e : Item.int 1 :: mid ++ [Item.int 1, BLOCK_END] =
        ([Item.int 1] ++ mid) ++ [Item.int 1, BLOCK_END] := by simp
    rw [e, staysPos_append, staysPos_append]
    have c1 : staysPos 1 [Item.int 1] = true := by decide
    have c2 : staysPos (1 + sumDelta [Item.int 1]) mid = true := by
      rw [show sumDelta [Item.int 1] = 0 from by decide, add_zero]
      refine staysPos_of_nonneg mid 1 (by omega) ?_
      rw [show (1 : Int) - 1 = 0 from by norm_num]
      exact hm.1
    have c3 : staysPos (1 + sumDelta ([Item.int 1] ++ mid)) [Item.int 1, BLOCK_END] = true := by
      rw [sumDelta_append, show sumDelta [Item.int 1] = 0 from by decide, hm.2]
      decide
    rw [c1, c2, c3]
    rfl
  unfold do_whitespace
  have e : before ++ (BLOCK_BEGIN :: Item.int 1 :: mid ++ [Item.int 1, BLOCK_END]) ++ after =
      before ++ ([BLOCK_BEGIN] ++ ((Item.int 1 :: mid ++ [Item.int 1, BLOCK_END]) ++ after)) := by
    simp
  rw [e]
  rw [dwProc_append]
  have hA2 : (dwProc [] 0 before).2.2 = 0 := by
    rw [dwProc_skip, hb2]
    omega
  rw [hA2, dwProc_append, dwProc_single]
  obtain ⟨e0, he0⟩ := dwStep_BB (dwProc [] 0 before).2.1
  rw [he0]
  rw [dwProc_append]
  rw [dwProc_copy _ _ _ hM]
  refine ⟨(dwProc [] 0 before).1 ++ e0,
    (dwProc [] (1 + sumDelta (Item.int 1 :: mid ++ [Item.int 1, BLOCK_END])) after).1 ++
      [Item.str (do_whitespace_internal
        (dwProc [] (1 + sumDelta (Item.int 1 :: mid ++ [Item.int 1, BLOCK_END])) after).2.1)], ?_⟩
  simp

/-- Unfolding of the walker on a `pre` element: pre mode is forced on for
the subtree, no inner normalization happens, and the collected children
items are wrapped in block markers. -/
theorem itc_pre_eq (cfg : Cfg) (attrs : List (String × String)) (children : List Node)
    (parentTag : Option String) (pm first : Bool) :
    inner_text_collection cfg (Node.element "pre" attrs children) parentTag pm first =
      if first = false ∧ is_rendered parentTag (Node.element "pre" attrs children) = false then []
      else BLOCK_BEGIN :: Item.int 1 ::
        collectChildren cfg children (some "pre") true ++ [Item.int 1, BLOCK_END] := by
  rw [itc_element_eq]
  have hpre : is_pre_rendered (Node.element "pre" attrs children) = true := rfl
  rw [hpre, Bool.or_true]
  split
  · rfl
  · simp [applyTagRules, brRule, pRule, imgRule, blockRule, blockLevelTags]

/-- A concrete stand-in for the external `urljoin` collaborator, used in
closed evaluations: it returns the URL unchanged. -/
def ujId : String → String → String := fun _ url => url

/-- For trees containing no whitespace-preserving element and no `br`,
the extracted text has no leading or trailing space or line feed. -/
theorem get_textContent_trimmed_of_noPreBr (uj : String → String → String) (el : Node)
    (ri i2s : Bool) (burl : String) (hnb : noPreBr el = true) :
    trimmedOk (get_textContent uj el ri i2s burl) := by
  have hpre : is_pre_rendered el = false := by
    cases el with
    | element t a cs =>
      rw [noPreBr] at hnb
      simp only [Bool.and_eq_true, Bool.not_eq_true'] at hnb
      exact hnb.1.1
    | text s => rfl
    | comment s => rfl
  have hnorm : allNorm (do_whitespace
      (inner_text_collection ⟨uj, ri, i2s, burl, 1⟩ el none false true)) :=
    do_whitespace_allNorm
      (inner_text_collection_intNorm ⟨uj, ri, i2s, burl, 1⟩ el none true hnb (by norm_num))
  unfold get_textContent
  rw [hpre]
  show trimmedOk (String.join (collapseGo 0 (gtc_strip (gtc_filter
    (do_whitespace (inner_text_collection ⟨uj, ri, i2s, burl, 1⟩ el none false true))))))
  apply collapse_output_trimmed
  · intro s hs
    have h2 := mem_stripEnds hs
    obtain ⟨h3, h4⟩ := gtc_filter_strMem h2
    exact ⟨hnorm s h3, h4⟩
  · intro i hi
    exact head_stripEnds hi
  · intro i hi
    exact getLast_stripEnds hi

/-! Claim theorems. -/

theorem dwProc_noInt {items : List Item} {c : List String}
    (h : ∀ i ∈ items, ¬ i = BLOCK_BEGIN ∧ ¬ i = BLOCK_END) :
    ∀ n : Int, Item.int n ∉ (dwProc c 0 items).1 := by
  induction items generalizing c with
  | nil =>
    intro n hn
    simp [dwProc] at hn
  | cons i rest ih =>
    intro n hn
    simp only [dwProc, List.mem_append] at hn
    have hi := h i (by simp)
    have hrest : ∀ j ∈ rest, ¬ j = BLOCK_BEGIN ∧ ¬ j = BLOCK_END :=
      fun j hj => h j (List.mem_cons_of_mem _ hj)
    rcases hn with hn | hn
    · cases i with
      | str s => simp [dwStep, BLOCK_BEGIN, BLOCK_END] at hn
      | int m =>
        have hm1 : ¬ m = -1 := by simpa [BLOCK_BEGIN] using hi.1
        have hm2 : ¬ m = -2 := by simpa [BLOCK_END] using hi.2
        by_cases hc : c = [] <;>
          simp [dwStep, hc, hm1, hm2, BLOCK_BEGIN, BLOCK_END] at hn
    · have hskip : (dwStep c 0 i).2.2 = 0 := by
        rw [dwStep_skip, delta_of_not_marker]
        · norm_num
        · unfold isMarker
          simp [hi.1, hi.2]
      rw [hskip] at hn
      exact ih hrest n hn

/-- C2 counterexample: `do_whitespace` does not emit a depth-0
`RequiredLineBreak` marker; on the one-marker list the marker vanishes
and only the final (empty) normalized run remains. -/
theorem c2_counterexample : do_whitespace [Item.int 1] = [Item.str ""] := by
  decide

/-- C2 (amended): on input with no block markers at all (so every item is
outside any BlockBegin/BlockEnd region), the Global Normalizer
`do_whitespace` drops every RequiredLineBreak marker: no int item occurs
in its output. -/
theorem c2_amended (items : List Item)
    (h : ∀ i ∈ items, ¬ i = BLOCK_BEGIN ∧ ¬ i = BLOCK_END) :
    ∀ n : Int, Item.int n ∉ do_whitespace items := by
  intro n hn
  unfold do_whitespace at hn
  simp only [List.mem_append, List.mem_singleton] at hn
  rcases hn with hn | hn
  · exact dwProc_noInt h n hn
  · exact absurd hn (by simp)

/-- C2 witness: the amended statement at a concrete input. -/
theorem c2_witness : Item.int 1 ∉ do_whitespace [Item.str "a", Item.int 1] :=
  c2_amended [Item.str "a", Item.int 1] (by decide) 1

/-- C4 counterexample: a Comment passed as the root (`first = true`)
bypasses the visibility check and, being a `NavigableString` in bs4, is
returned as a text item — its content becomes text content. -/
theorem c4_counterexample :
    inner_text_collection ⟨ujId, true, true, "", 1⟩ (Node.comment "secret") none false true =
      [Item.str "secret"] := by
  rw [itc_comment_eq, if_neg (by decide)]

/-- C4 (amended): a non-root Comment node always yields the empty item
sequence (the visibility predicate rejects comments), so comment content
never appears as text content from any subtree; only a Comment passed
directly as the root with the `first` flag set is returned as its text. -/
theorem c4_amended (cfg : Cfg) (s : String) (parentTag : Option String) (pm : Bool) :
    inner_text_collection cfg (Node.comment s) parentTag pm false = [] := by
  rw [itc_comment_eq, if_pos ⟨rfl, rfl⟩]

/-- C7: text-run normalization is idempotent: applying the pipeline
(strip space/tab around line feeds, segment-break transformation,
tab-to-space, newline-to-space, collapse space runs, strip spaces) twice
gives the same result as applying it once. -/
theorem c7_normalize_run_idem (s : String) :
    normalize_run (normalize_run s) = normalize_run s :=
  congrArg String.mk (do_whitespace_internalChars_idem s.data)

theorem optTagIn_iff (o : Option String) (l : List String) :
    optTagIn o l = true ↔ ∃ t, o = some t ∧ t ∈ l := by
  cases o with
  | none => simp [optTagIn]
  | some t => simp [optTagIn]

/-- C8: `is_rendered` returns `false` exactly for comments, `dialog`
without `open`, `form` with a table-section parent, elements with a
`hidden` attribute, and the fixed never-rendered tag set, and returns
`true` otherwise; and a non-root node it rejects contributes an empty
item sequence to the walk. -/
theorem c8_is_rendered_characterization :
    (∀ (parentTag : Option String) (node : Node),
      is_rendered parentTag node = false ↔
        (isCommentNode node = true ∨
         (nodeName node = some "dialog" ∧ hasAttr node "open" = false) ∨
         (nodeName node = some "form" ∧ optTagIn parentTag tableLikeTags = true) ∨
         (isElement node = true ∧ hasAttr node "hidden" = true) ∨
         (∃ t, nodeName node = some t ∧ t ∈ neverRenderedTags))) ∧
    (∀ (cfg : Cfg) (node : Node) (parentTag : Option String) (pm : Bool),
      is_rendered parentTag node = false →
        inner_text_collection cfg node parentTag pm false = []) := by
  constructor
  · intro p n
    unfold is_rendered
    split_ifs with h1 h2 h3 h4 h5
    · exact iff_of_true rfl (Or.inl h1)
    · exact iff_of_true rfl (Or.inr (Or.inl h2))
    · exact iff_of_true rfl (Or.inr (Or.inr (Or.inl h3)))
    · exact iff_of_true rfl (Or.inr (Or.inr (Or.inr (Or.inl h4))))
    · exact iff_of_true rfl
        (Or.inr (Or.inr (Or.inr (Or.inr ((optTagIn_iff (nodeName n) neverRenderedTags).mp h5)))))
    · constructor
      · intro hcontra
        exact absurd hcontra (by simp)
      · rintro (hc | hd | hf | hh | hset)
        · exact absurd hc h1
        · exact absurd hd h2
        · exact absurd hf h3
        · exact absurd hh h4
        · exact absurd ((optTagIn_iff (nodeName n) neverRenderedTags).mpr hset) h5
  · intro cfg node p pm h
    cases node with
    | text s => rw [itc_text_eq, if_pos ⟨rfl, h⟩]
    | comment s => rw [itc_comment_eq, if_pos ⟨rfl, h⟩]
    | element name attrs children => rw [itc_element_eq, if_pos ⟨rfl, h⟩]

/-- C8 witness: a hidden `div` is not rendered and its subtree collapses
to nothing in the walk. -/
theorem c8_witness :
    is_rendered none (Node.element "div" [("hidden", "")] [Node.text "x"]) = false ∧
    inner_text_collection ⟨ujId, true, true, "", 1⟩
      (Node.element "div" [("hidden", "")] [Node.text "x"]) none false false = [] :=
  ⟨by decide,
   c8_is_rendered_characterization.2 ⟨ujId, true, true, "", 1⟩
     (Node.element "div" [("hidden", "")] [Node.text "x"]) none false (by decide)⟩

/-- C9: the item sequence returned by the walker has balanced, properly
nested block markers (for any positive required line break count, as the
data model demands), and the invariant is preserved by the normalization
pass applied during block-level wrapping. -/
theorem c9_balanced_markers (cfg : Cfg) (el : Node) (parentTag : Option String)
    (pm first : Bool) (hr : 1 ≤ cfg.required_line_break_count) :
    balanced (inner_text_collection cfg el parentTag pm first) ∧
      (∀ l, balanced l → balanced (do_whitespace l)) :=
  ⟨inner_text_collection_balanced cfg el parentTag pm first hr,
   fun _ h => do_whitespace_balanced h⟩

/-- C9 witness: the balance invariant at a concrete tree. -/
theorem c9_witness :
    (1 : Int) ≤ 1 ∧
    (balanced (inner_text_collection ⟨ujId, true, true, "", 1⟩
        (Node.element "div" [] [Node.element "p" [] [Node.text "x"]]) none false true) ∧
      (∀ l, balanced l → balanced (do_whitespace l))) :=
  ⟨by norm_num,
   c9_balanced_markers ⟨ujId, true, true, "", 1⟩
     (Node.element "div" [] [Node.element "p" [] [Node.text "x"]]) none false true
     (by norm_num)⟩

/-- C10: an `img` whose `alt` attribute is present but empty is treated
as found with `replace_img`: no fallback to `src` happens even with
`img_to_src`, and the element's items become the single text fragment of
two spaces, which the rest of the pipeline then erases. -/
theorem c10_img_empty_alt :
    (∀ (cfg : Cfg) (attrs : List (String × String)) (children : List Node)
      (parentTag : Option String) (pm first : Bool),
      getAttrOf attrs "alt" = some "" →
      cfg.replace_img = true →
      is_rendered parentTag (Node.element "img" attrs children) = true →
      inner_text_collection cfg (Node.element "img" attrs children) parentTag pm first =
        [Item.str "  "]) ∧
    (∀ (uj : String → String → String) (i2s : Bool) (burl : String),
      get_textContent uj (Node.element "img" [("alt", "")] []) true i2s burl = "") := by
  have hmain : ∀ (cfg : Cfg) (attrs : List (String × String)) (children : List Node)
      (parentTag : Option String) (pm first : Bool),
      getAttrOf attrs "alt" = some "" →
      cfg.replace_img = true →
      is_rendered parentTag (Node.element "img" attrs children) = true →
      inner_text_collection cfg (Node.element "img" attrs children) parentTag pm first =
        [Item.str "  "] := by
    intro cfg attrs children parentTag pm first halt hri hrend
    rw [itc_element_eq]
    rw [if_neg (by simp [hrend])]
    unfold applyTagRules brRule pRule imgRule blockRule
    simp [hri, halt, blockLevelTags]
  refine ⟨hmain, ?_⟩
  intro uj i2s burl
  have h1 := hmain ⟨uj, true, i2s, burl, 1⟩ [("alt", "")] [] none false true rfl rfl (by decide)
  unfold get_textContent
  show String.join (collapseGo 0 (gtc_strip (gtc_filter
    (do_whitespace (inner_text_collection ⟨uj, true, i2s, burl, 1⟩
      (Node.element "img" [("alt", "")] []) none false true))))) = ""
  rw [h1]
  decide

/-- C10 witness: the img rule at a concrete element carrying both an
empty `alt` and a `src`, with the fallback enabled. -/
theorem c10_witness :
    getAttrOf [("alt", ""), ("src", "pic.png")] "alt" = some "" ∧
    inner_text_collection ⟨ujId, true, true, "base", 1⟩
      (Node.element "img" [("alt", ""), ("src", "pic.png")] []) none false false =
      [Item.str "  "] :=
  ⟨by decide,
   c10_img_empty_alt.1 ⟨ujId, true, true, "base", 1⟩ [("alt", ""), ("src", "pic.png")] []
     none false false (by decide) rfl (by decide)⟩

/-- C1 counterexample: the extracted text can begin and end with a line
feed — a `pre` root keeps the raw line feeds of its content (the root
being whitespace-preserving skips the global normalization), and a bare
`br` element yields the string of a single line feed. -/
theorem c1_counterexample :
    get_textContent ujId (Node.element "pre" [] [Node.text "\nhi\n"]) true true "" = "\nhi\n" ∧
    get_textContent ujId (Node.element "br" [] []) true true "" = "\n" := by
  constructor
  · have h1 : inner_text_collection ⟨ujId, true, true, "", 1⟩
        (Node.element "pre" [] [Node.text "\nhi\n"]) none false true =
        [BLOCK_BEGIN, Item.int 1, Item.str "\nhi\n", Item.int 1, BLOCK_END] := by
      rw [itc_pre_eq, if_neg (by decide), collectChildren_cons, collectChildren_nil,
        itc_text_eq, if_neg (by decide)]
      decide
    unfold get_textContent
    show (if is_pre_rendered (Node.element "pre" [] [Node.text "\nhi\n"]) = false then
        String.join (collapseGo 0 (gtc_strip (gtc_filter (do_whitespace
          (inner_text_collection ⟨ujId, true, true, "", 1⟩
            (Node.element "pre" [] [Node.text "\nhi\n"]) none false true)))))
      else
        String.join (collapseGo 0 (gtc_strip (gtc_filter
          (inner_text_collection ⟨ujId, true, true, "", 1⟩
            (Node.element "pre" [] [Node.text "\nhi\n"]) none false true))))) = "\nhi\n"
    rw [h1]
    decide
  · have h2 : inner_text_collection ⟨ujId, true, true, "", 1⟩
        (Node.element "br" [] []) none false true =
        [BLOCK_BEGIN, Item.str "\n", BLOCK_END] := by
      rw [itc_element_eq, if_neg (by decide), collectChildren_nil]
      decide
    unfold get_textContent
    show String.join (collapseGo 0 (gtc_strip (gtc_filter (do_whitespace
      (inner_text_collection ⟨ujId, true, true, "", 1⟩
        (Node.element "br" [] []) none false true))))) = "\n"
    rw [h2]
    decide

/-- C1 (amended): for every tree containing no whitespace-preserving
element (`pre`, `listing`, `plaintext`, `xmp`) and no `br` element, and
every configuration, the string returned by `get_textContent` has no
leading or trailing line feed and no leading or trailing space. -/
theorem c1_amended (uj : String → String → String) (el : Node) (ri i2s : Bool)
    (burl : String) (hnb : noPreBr el = true) :
    (get_textContent uj el ri i2s burl).data.head? ≠ some ' ' ∧
    (get_textContent uj el ri i2s burl).data.head? ≠ some '\n' ∧
    (get_textContent uj el ri i2s burl).data.getLast? ≠ some ' ' ∧
    (get_textContent uj el ri i2s burl).data.getLast? ≠ some '\n' :=
  get_textContent_trimmed_of_noPreBr uj el ri i2s burl hnb

/-- C1 witness: the amended statement at a concrete tree with inner
whitespace to be trimmed. -/
theorem c1_witness :
    noPreBr (Node.element "div" [] [Node.text "  hi  "]) = true ∧
    ((get_textContent ujId (Node.element "div" [] [Node.text "  hi  "]) true true "").data.head? ≠ some ' ' ∧
     (get_textContent ujId (Node.element "div" [] [Node.text "  hi  "]) true true "").data.head? ≠ some '\n' ∧
     (get_textContent ujId (Node.element "div" [] [Node.text "  hi  "]) true true "").data.getLast? ≠ some ' ' ∧
     (get_textContent ujId (Node.element "div" [] [Node.text "  hi  "]) true true "").data.getLast? ≠ some '\n') :=
  ⟨by simp [noPreBr, noPreBrList, is_pre_rendered, nodeName],
   c1_amended ujId (Node.element "div" [] [Node.text "  hi  "]) true true ""
     (by simp [noPreBr, noPreBrList, is_pre_rendered, nodeName])⟩

/-- C3 counterexample: a `p` element collected with `pre_mode` false and
required line break count 2 returns a sequence containing no
`RequiredLineBreak(2)` marker at all — the paragraph-rule layer is gone,
only the block-wrap `RequiredLineBreak(1)` markers remain. -/
theorem c3_counterexample :
    inner_text_collection ⟨ujId, true, false, "", 2⟩
        (Node.element "p" [] [Node.text "hello"]) none false false =
      [BLOCK_BEGIN, Item.int 1, Item.str "hello", Item.str "", Item.int 1, BLOCK_END] ∧
    Item.int 2 ∉ inner_text_collection ⟨ujId, true, false, "", 2⟩
        (Node.element "p" [] [Node.text "hello"]) none false false := by
  have h : inner_text_collection ⟨ujId, true, false, "", 2⟩
      (Node.element "p" [] [Node.text "hello"]) none false false =
      [BLOCK_BEGIN, Item.int 1, Item.str "hello", Item.str "", Item.int 1, BLOCK_END] := by
    rw [itc_element_eq, if_neg (by decide), collectChildren_cons, collectChildren_nil,
      itc_text_eq, if_neg (by decide)]
    decide
  refine ⟨h, ?_⟩
  rw [h]
  decide

/-- C3 (amended): both marker layers of a rendered `p` element are
preserved only when `pre_mode` is true; with `pre_mode` false the
paragraph markers are fed through `do_whitespace` during the block wrap,
and `do_whitespace` drops depth-0 RequiredLineBreak markers (third
conjunct, shown for the leading one), leaving only the generic
block-wrap `RequiredLineBreak(1)` layer around the normalized content. -/
theorem c3_amended (cfg : Cfg) (attrs : List (String × String)) (children : List Node)
    (parentTag : Option String) (first : Bool)
    (hrend : is_rendered parentTag (Node.element "p" attrs children) = true) :
    (inner_text_collection cfg (Node.element "p" attrs children) parentTag true first =
      BLOCK_BEGIN :: Item.int 1 :: Item.int cfg.required_line_break_count ::
        collectChildren cfg children (some "p") true ++
        [Item.int cfg.required_line_break_count, Item.int 1, BLOCK_END]) ∧
    (inner_text_collection cfg (Node.element "p" attrs children) parentTag false first =
      BLOCK_BEGIN :: Item.int 1 ::
        do_whitespace (Item.int cfg.required_line_break_count ::
          collectChildren cfg children (some "p") false ++
          [Item.int cfg.required_line_break_count]) ++ [Item.int 1, BLOCK_END]) ∧
    (∀ (n : Int) (l : List Item), ¬ n = -1 → ¬ n = -2 →
      do_whitespace (Item.int n :: l) = do_whitespace l) := by
  refine ⟨?_, ?_, ?_⟩
  · rw [itc_element_eq]
    rw [if_neg (by simp [hrend])]
    rw [show (true || is_pre_rendered (Node.element "p" attrs children)) = true from rfl]
    unfold applyTagRules brRule pRule imgRule blockRule
    simp [blockLevelTags]
  · rw [itc_element_eq]
    rw [if_neg (by simp [hrend])]
    rw [show (false || is_pre_rendered (Node.element "p" attrs children)) = false from rfl]
    unfold applyTagRules brRule pRule imgRule blockRule
    simp [blockLevelTags]
  · intro n l hn1 hn2
    unfold do_whitespace
    have hstep : dwStep [] 0 (Item.int n) = ([], [], 0) := by
      simp [dwStep, hn1, hn2, BLOCK_BEGIN, BLOCK_END]
    simp [dwProc, hstep]

/-- C3 witness: the amended statement at a concrete `p` element with
required line break count 2. -/
theorem c3_witness :
    is_rendered none (Node.element "p" [] [Node.text "x"]) = true ∧
    inner_text_collection ⟨ujId, true, true, "", 2⟩
        (Node.element "p" [] [Node.text "x"]) none true false =
      BLOCK_BEGIN :: Item.int 1 :: Item.int 2 ::
        collectChildren ⟨ujId, true, true, "", 2⟩ [Node.text "x"] (some "p") true ++
        [Item.int 2, Item.int 1, BLOCK_END] :=
  ⟨by decide,
   (c3_amended ⟨ujId, true, true, "", 2⟩ [] [Node.text "x"] none false (by decide)).1⟩

/-- C5 counterexample: text inside a `listing` element (one of the four
whitespace-preserving tags) is rewritten by the Global Normalizer — the
double space of the fragment collapses — because `listing` is not in the
block-level tag list and therefore gets no protecting block markers. -/
theorem c5_counterexample :
    get_textContent ujId
      (Node.element "span" [] [Node.element "listing" [] [Node.text "a  b"]])
      true true "" = "a b" := by
  have h1 : inner_text_collection ⟨ujId, true, true, "", 1⟩
      (Node.element "listing" [] [Node.text "a  b"]) (some "span") false false =
      [Item.str "a  b"] := by
    rw [itc_element_eq, if_neg (by decide), collectChildren_cons, collectChildren_nil,
      itc_text_eq, if_neg (by decide)]
    decide
  have h2 : inner_text_collection ⟨ujId, true, true, "", 1⟩
      (Node.element "span" [] [Node.element "listing" [] [Node.text "a  b"]])
      none false true = [Item.str "a  b"] := by
    rw [itc_element_eq, if_neg (by decide)]
    rw [show (false || is_pre_rendered
        (Node.element "span" [] [Node.element "listing" [] [Node.text "a  b"]])) = false from rfl]
    rw [collectChildren_cons, collectChildren_nil, h1]
    decide
  unfold get_textContent
  show String.join (collapseGo 0 (gtc_strip (gtc_filter (do_whitespace
    (inner_text_collection ⟨ujId, true, true, "", 1⟩
      (Node.element "span" [] [Node.element "listing" [] [Node.text "a  b"]])
      none false true))))) = "a b"
  rw [h2]
  decide

/-- C5 (amended): for a `pre` element (the one whitespace-preserving tag
that is also block-level), the walker's entire item sequence — the raw
text of the whole subtree, interior block markers included — appears
contiguously and verbatim in the Global Normalizer's output, for any
balanced items preceding it; in particular every collected text fragment
survives byte-for-byte.  For `listing`, `plaintext` and `xmp` no block
markers protect the content and the normalizer rewrites it. -/
theorem c5_amended (cfg : Cfg) (attrs : List (String × String)) (children : List Node)
    (parentTag : Option String) (pm first : Bool) (before after : List Item)
    (hr : 1 ≤ cfg.required_line_break_count) (hb : balanced before) :
    (∃ o1 o2, do_whitespace (before ++
        inner_text_collection cfg (Node.element "pre" attrs children) parentTag pm first ++
          after) =
      o1 ++ inner_text_collection cfg (Node.element "pre" attrs children) parentTag pm first
        ++ o2) ∧
    (∀ s, Item.str s ∈
        inner_text_collection cfg (Node.element "pre" attrs children) parentTag pm first →
      Item.str s ∈ do_whitespace (before ++
        inner_text_collection cfg (Node.element "pre" attrs children) parentTag pm first ++
          after)) := by
  have hmain : ∃ o1 o2, do_whitespace (before ++
      inner_text_collection cfg (Node.element "pre" attrs children) parentTag pm first ++
        after) =
      o1 ++ inner_text_collection cfg (Node.element "pre" attrs children) parentTag pm first
        ++ o2 := by
    rw [itc_pre_eq]
    split
    · exact ⟨[], do_whitespace (before ++ [] ++ after), by simp⟩
    · exact dw_block_infix before (collectChildren cfg children (some "pre") true) after hb
        (collectChildren_balanced cfg children (some "pre") true hr)
  refine ⟨hmain, ?_⟩
  intro s hs
  obtain ⟨o1, o2, he⟩ := hmain
  rw [he]
  simp only [List.append_assoc, List.mem_append]
  exact Or.inr (Or.inl hs)

/-- C5 witness: the amended statement at a concrete `pre` element with
raw inner whitespace. -/
theorem c5_witness :
    (1 : Int) ≤ 1 ∧ balanced [] ∧
    (∃ o1 o2, do_whitespace ([] ++
        inner_text_collection ⟨ujId, true, true, "", 1⟩
          (Node.element "pre" [] [Node.text "x  y"]) none false false ++ []) =
      o1 ++ inner_text_collection ⟨ujId, true, true, "", 1⟩
          (Node.element "pre" [] [Node.text "x  y"]) none false false ++ o2) :=
  ⟨by norm_num, balanced_nil,
   (c5_amended ⟨ujId, true, true, "", 1⟩ [] [Node.text "x  y"] none false false [] []
     (by norm_num) balanced_nil).1⟩

/-- C6: in the finalizer, the marker run `[RequiredLineBreak(1),
RequiredLineBreak(2), RequiredLineBreak(1)]` between two nonempty text
items (so the run is not trimmed away) collapses to exactly two line
feeds: each marker emits `n - count` line feeds only when it exceeds the
running count, which text items reset. -/
theorem c6_marker_collapse (a b : String) (ha : ¬ a = "") (hb : ¬ b = "") :
    String.join (collapseGo 0 (gtc_strip (gtc_filter
      [Item.str a, Item.int 1, Item.int 2, Item.int 1, Item.str b]))) =
      a ++ "\n\n" ++ b := by
  have hf : gtc_filter [Item.str a, Item.int 1, Item.int 2, Item.int 1, Item.str b] =
      [Item.str a, Item.int 1, Item.int 2, Item.int 1, Item.str b] := by
    unfold gtc_filter
    simp [ha, hb, BLOCK_BEGIN, BLOCK_END]
  have hs : gtc_strip [Item.str a, Item.int 1, Item.int 2, Item.int 1, Item.str b] =
      [Item.str a, Item.int 1, Item.int 2, Item.int 1, Item.str b] := by
    unfold gtc_strip stripEnds
    simp [isIntItem, List.dropWhile]
  rw [hf, hs]
  have hc : collapseGo 0 [Item.str a, Item.int 1, Item.int 2, Item.int 1, Item.str b] =
      [a, "\n", "\n", "", b] := by
    rw [collapseGo_str_cons]
    norm_num [collapseGo]
  rw [hc]
  apply String.ext
  rw [join_data]
  show a.data ++ ("\n".data ++ ("\n".data ++ ("".data ++ (b.data ++ [])))) =
    (a ++ "\n\n" ++ b).data
  rw [show (a ++ "\n\n" ++ b).data = (a.data ++ "\n\n".data) ++ b.data from rfl]
  simp

/-- C6 witness: the collapse at concrete text items. -/
theorem c6_witness :
    ¬ "x" = "" ∧ ¬ "y" = "" ∧
    String.join (collapseGo 0 (gtc_strip (gtc_filter
      [Item.str "x", Item.int 1, Item.int 2, Item.int 1, Item.str "y"]))) = "x\n\ny" :=
  ⟨by decide, by decide, c6_marker_collapse "x" "y" (by decide) (by decide)⟩

end InnerText
